import Mathlib

/-!
Shallow embedding of the range-normalization and repeated-pattern
classification engine of the repository (src/day2.rs, src/day5.rs):
range parsing, range merging, binary-search membership, the two
digit-pattern predicates and the two aggregators.

Modelling conventions.

* Rust u64 values are modelled as Nat.  Parsing enforces the u64 range:
  a numeral whose value is at least 2^64 fails to parse, exactly as
  u64::from_str does.
* u64 arithmetic is modelled as checked arithmetic (addC, pow10C): an
  operation whose mathematical result does not fit in 64 bits aborts the
  program under the overflow checks of the default build profile; an
  aborted computation is represented by none.
* Rust strings being parsed are modelled as lists of characters.  The
  decimal string n.to_string() of a number is modelled by its list of
  decimal digit values, most significant first (decStr); comparing
  slices of digit strings is equivalent to comparing the corresponding
  slices of digit lists.
* Every loop is modelled by structural recursion, with an explicit
  iteration count where the loop has a numeric loop variable, so that
  every definition reduces inside the kernel.
-/

/-- The number of values of the u64 type. -/
def U64 : Nat := 2 ^ 64

/-- Range from day2.rs: an inclusive numeric interval.  The field `end`
of the Rust struct is called end_ here because end is a Lean keyword.
The derived Rust Ord instance compares start first, then end. -/
structure Range where
  start : Nat
  end_ : Nat
deriving DecidableEq, Repr

/-- The characters for which Rust char::is_whitespace returns true
(the Unicode White_Space property). -/
def rustWhitespace : List Char :=
  ['\u0009', '\u000A', '\u000B', '\u000C', '\u000D', '\u0020', '\u0085',
   '\u00A0', '\u1680', '\u2000', '\u2001', '\u2002', '\u2003', '\u2004',
   '\u2005', '\u2006', '\u2007', '\u2008', '\u2009', '\u200A', '\u2028',
   '\u2029', '\u202F', '\u205F', '\u3000']

/-- Whitespace test used by str::trim. -/
def isWs (c : Char) : Bool := rustWhitespace.contains c

/-- str::trim: remove leading and trailing whitespace. -/
def trim (l : List Char) : List Char :=
  ((l.dropWhile isWs).reverse.dropWhile isWs).reverse

/-- str::split(sep): split at every occurrence of sep; splitting the
empty string yields one empty piece. -/
def splitOn (sep : Char) : List Char → List (List Char)
  | [] => [[]]
  | c :: cs =>
    if c = sep then [] :: splitOn sep cs
    else
      match splitOn sep cs with
      | [] => [[c]]
      | t :: ts => (c :: t) :: ts

/-- str::split_once(sep): split at the first occurrence of sep, or fail
if sep does not occur. -/
def splitOnce (sep : Char) : List Char → Option (List Char × List Char)
  | [] => none
  | c :: cs =>
    if c = sep then some ([], cs)
    else (splitOnce sep cs).map (fun p => (c :: p.1, p.2))

/-- The numeric value of an ASCII digit character, if it is one. -/
def digitVal (c : Char) : Option Nat :=
  if '0' ≤ c ∧ c ≤ '9' then some (c.toNat - 48) else none

/-- Accumulating decimal parse over a character list; fails at the first
character that is not an ASCII digit. -/
def parseNatAcc : Nat → List Char → Option Nat
  | acc, [] => some acc
  | acc, c :: cs =>
    match digitVal c with
    | some d => parseNatAcc (acc * 10 + d) cs
    | none => none

/-- str::parse::\<u64\>, that is u64::from_str: an optional leading plus
sign, then at least one ASCII digit, and the value must fit in 64 bits. -/
def parseU64 (l : List Char) : Option Nat :=
  let l' := if l.head? = some '+' then l.tail else l
  if l'.isEmpty then none
  else
    match parseNatAcc 0 l' with
    | some v => if v < U64 then some v else none
    | none => none

/-- input.replace("\n", "").replace(" ", "") from parse_ranges. -/
def clean (l : List Char) : List Char :=
  (l.filter (fun c => c ≠ '\n')).filter (fun c => c ≠ ' ')

/-- One iteration of the parse_ranges loop body: trim the comma-separated
token, skip it if empty, split at the first dash and parse both halves;
any failure skips the token. -/
def parseToken (t : List Char) : Option Range :=
  let t' := trim t
  if t'.isEmpty then none
  else
    match splitOnce '-' t' with
    | none => none
    | some (a, b) =>
      match parseU64 a, parseU64 b with
      | some s, some e => some ⟨s, e⟩
      | _, _ => none

/-- parse_ranges from day2.rs: strip newlines and spaces, split at
commas, parse each token, push the successfully parsed ranges in order. -/
def parse_ranges (input : List Char) : List Range :=
  (splitOn ',' (clean input)).filterMap parseToken

/-- Checked u64 addition: the build aborts on overflow. -/
def addC (a b : Nat) : Option Nat :=
  if a + b < U64 then some (a + b) else none

/-- The derived Range order of day2.rs: lexicographic on (start, end). -/
def lexLe (a b : Range) : Prop :=
  a.start < b.start ∨ (a.start = b.start ∧ a.end_ ≤ b.end_)

instance : DecidableRel lexLe := fun a b =>
  inferInstanceAs (Decidable (a.start < b.start ∨ (a.start = b.start ∧ a.end_ ≤ b.end_)))

instance : IsTotal Range lexLe :=
  ⟨fun a b => by
    unfold lexLe
    rcases Nat.lt_trichotomy a.start b.start with h | h | h
    · exact Or.inl (Or.inl h)
    · rcases Nat.le_total a.end_ b.end_ with h2 | h2
      · exact Or.inl (Or.inr ⟨h, h2⟩)
      · exact Or.inr (Or.inr ⟨h.symm, h2⟩)
    · exact Or.inr (Or.inl h)⟩

instance : IsTrans Range lexLe :=
  ⟨fun a b c hab hbc => by
    unfold lexLe at *
    rcases hab with h | ⟨h1, h2⟩
    · rcases hbc with h' | ⟨h1', _⟩
      · exact Or.inl (h.trans h')
      · exact Or.inl (h1' ▸ h)
    · rcases hbc with h' | ⟨h1', h2'⟩
      · exact Or.inl (h1 ▸ h')
      · exact Or.inr ⟨h1.trans h1', h2.trans h2'⟩⟩

/-- sorted.sort() from merge_ranges: any sorting algorithm agrees with the
Rust sort here, because the derived order is antisymmetric. -/
def sortRanges (l : List Range) : List Range := List.insertionSort lexLe l

/-- The merging sweep of merge_ranges: acc is the last element of the
merged vector, the only element the loop body can change.  Each loop
iteration evaluates merged[last].end + 1, a checked u64 addition. -/
def sweepC (acc : Range) : List Range → Option (List Range)
  | [] => some [acc]
  | r :: rs =>
    match addC acc.end_ 1 with
    | none => none
    | some e1 =>
      if r.start ≤ e1 then sweepC ⟨acc.start, max acc.end_ r.end_⟩ rs
      else
        match sweepC r rs with
        | none => none
        | some out => some (acc :: out)

/-- merge_ranges from day2.rs: sort, then sweep, coalescing overlapping
or adjacent ranges. -/
def merge_ranges (ranges : List Range) : Option (List Range) :=
  match sortRanges ranges with
  | [] => some []
  | r :: rs => sweepC r rs

/-- The binary-search loop of in_merged_ranges.  The fuel is an upper
bound on the number of iterations; the loop narrows hi - lo strictly, so
fuel = hi - lo always suffices. -/
def bsearch (x : Nat) (rs : List Range) : Nat → Nat → Nat → Bool
  | 0, _, _ => false
  | fuel + 1, lo, hi =>
    if lo < hi then
      let mid := lo + (hi - lo) / 2
      let r := rs.getD mid ⟨0, 0⟩
      if x < r.start then bsearch x rs fuel lo mid
      else if r.end_ < x then bsearch x rs fuel (mid + 1) hi
      else true
    else false

/-- in_merged_ranges from day2.rs: binary search over the merged set. -/
def in_merged_ranges (x : Nat) (merged : List Range) : Bool :=
  bsearch x merged merged.length 0 merged.length

/-- Little-endian decimal digits with explicit fuel; digitsLE n n equals
Nat.digits 10 n (proved below as digitsLE_eq). -/
def digitsLE : Nat → Nat → List Nat
  | 0, _ => []
  | _ + 1, 0 => []
  | fuel + 1, n + 1 => (n + 1) % 10 :: digitsLE fuel ((n + 1) / 10)

/-- The decimal representation of n, that is n.to_string(), given as the
list of its digit values, most significant first. -/
def decStr (n : Nat) : List Nat :=
  if n = 0 then [0] else (digitsLE n n).reverse

/-- Numeric value of a most-significant-first digit list: the value that
parsing the corresponding string yields. -/
def valBE (l : List Nat) : Nat := Nat.ofDigits 10 l.reverse

/-- The inner check of is_invalid_part2: every block of length p beyond
the first equals the first p digits. -/
def blocksMatch (s : List Nat) (p reps : Nat) : Bool :=
  (List.range (reps - 1)).all fun i =>
    decide ((s.drop ((i + 1) * p)).take p = s.take p)

/-- is_invalid_part2 from day2.rs: the decimal form of n consists of some
pattern repeated at least twice. -/
def is_invalid_part2 (n : Nat) : Bool :=
  let s := decStr n
  let len := s.length
  (List.range (len / 2)).any fun j =>
    let p := j + 1
    if len % p ≠ 0 then false
    else if len / p < 2 then false
    else blocksMatch s p (len / p)

/-- Checked 10u64.pow(e): the build aborts on overflow. -/
def pow10C (e : Nat) : Option Nat :=
  if 10 ^ e < U64 then some (10 ^ e) else none

/-- The body of the candidate loop for t in start..end of
sum_invalid_ids.  The fuel counts the remaining iterations.  A some
result is the accumulated sum at normal exit or at the early break; none
records an aborted addition. -/
def part1Loop (merged : List Range) (maxUpper : Nat) : Nat → Nat → Nat → Option Nat
  | 0, _, acc => some acc
  | fuel + 1, t, acc =>
    let s := decStr t
    let num := valBE (s ++ s)
    if num < U64 then
      if maxUpper < num then some acc
      else if in_merged_ranges num merged then
        match addC acc num with
        | none => none
        | some acc2 => part1Loop merged maxUpper fuel (t + 1) acc2
      else part1Loop merged maxUpper fuel (t + 1) acc
    else part1Loop merged maxUpper fuel (t + 1) acc

/-- The even candidate lengths 2, 4, ... up to maxDigits enumerated by
(2..=max_digits).step_by(2). -/
def evenLens (maxDigits : Nat) : List Nat :=
  (List.range (maxDigits / 2)).map fun i => 2 + 2 * i

/-- The outer candidate loop of sum_invalid_ids over the even total
lengths. -/
def part1Lens (merged : List Range) (maxUpper : Nat) : List Nat → Nat → Option Nat
  | [], acc => some acc
  | L :: Ls, acc =>
    let half := L / 2
    match pow10C (half - 1), pow10C half with
    | some start, some stop =>
      match part1Loop merged maxUpper (stop - start) start acc with
      | none => none
      | some acc2 => part1Lens merged maxUpper Ls acc2
    | _, _ => none

/-- merged.iter().map(|r| r.end).max().unwrap_or(0). -/
def maxEnds (l : List Range) : Nat := (l.map Range.end_).foldr max 0

/-- sum_invalid_ids from day2.rs: the candidate-generation aggregator for
the doubled-pattern predicate. -/
def sum_invalid_ids (input : List Char) : Option Nat :=
  let ranges := parse_ranges input
  if ranges.isEmpty then some 0
  else
    match merge_ranges ranges with
    | none => none
    | some merged =>
      let maxUpper := maxEnds merged
      let maxDigits := (decStr maxUpper).length
      part1Lens merged maxUpper (evenLens maxDigits) 0

/-- The body of the scan loop for num in range.start..=range.end of
sum_invalid_ids_part2; the fuel counts the remaining iterations. -/
def part2Loop : Nat → Nat → Nat → Option Nat
  | 0, _, acc => some acc
  | fuel + 1, n, acc =>
    if is_invalid_part2 n then
      match addC acc n with
      | none => none
      | some acc2 => part2Loop fuel (n + 1) acc2
    else part2Loop fuel (n + 1) acc

/-- The outer loop of sum_invalid_ids_part2 over the merged ranges. -/
def part2Ranges : List Range → Nat → Option Nat
  | [], acc => some acc
  | r :: rs, acc =>
    match part2Loop (r.end_ + 1 - r.start) r.start acc with
    | none => none
    | some acc2 => part2Ranges rs acc2

/-- sum_invalid_ids_part2 from day2.rs: the bounded-scan aggregator for
the repeated-pattern predicate. -/
def sum_invalid_ids_part2 (input : List Char) : Option Nat :=
  let ranges := parse_ranges input
  if ranges.isEmpty then some 0
  else
    match merge_ranges ranges with
    | none => none
    | some merged => part2Ranges merged 0

namespace Day5

/-- parse_range from day5.rs: split at every dash, require exactly two
pieces, parse both as u64. -/
def parse_range (line : List Char) : Option (Nat × Nat) :=
  match splitOn '-' line with
  | [a, b] =>
    match parseU64 a, parseU64 b with
    | some s, some e => some (s, e)
    | _, _ => none
  | _ => none

end Day5

/-- Value x lies in the inclusive range r. -/
def memR (r : Range) (x : Nat) : Prop := r.start ≤ x ∧ x ≤ r.end_

instance (r : Range) (x : Nat) : Decidable (memR r x) :=
  inferInstanceAs (Decidable (r.start ≤ x ∧ x ≤ r.end_))

/-- Linear membership over a raw range list. -/
def inAnyB (R : List Range) (x : Nat) : Bool := R.any fun r => decide (memR r x)

/-- ExactDouble from the specification: the digit string has even length
and its first half equals its second half. -/
def exactDoubleB (l : List Nat) : Bool :=
  decide (l.length % 2 = 0) && decide (l.take (l.length / 2) = l.drop (l.length / 2))

/-- MultiRepeat from the specification: some p with 1 ≤ p ≤ len / 2
divides len evenly, len / p is at least 2, and every length-p block
equals the first p digits. -/
def multiRepeatB (l : List Nat) : Bool :=
  (List.range (l.length / 2)).any fun j =>
    let p := j + 1
    decide (l.length % p = 0) && decide (2 ≤ l.length / p) &&
      ((List.range (l.length / p)).all fun i =>
        decide ((l.drop (i * p)).take p = l.take p))

/-- ExactDouble of the decimal representation of n. -/
def exactDoubleNum (n : Nat) : Bool := exactDoubleB (decStr n)

/-- MultiRepeat of the decimal representation of n. -/
def multiRepeatNum (n : Nat) : Bool := multiRepeatB (decStr n)

/-- The reference sum: all values up to the bound B that lie inside some
range of R and satisfy the predicate P. -/
def qualSum (R : List Range) (P : Nat → Bool) (B : Nat) : Nat :=
  ((List.range (B + 1)).filter fun n => inAnyB R n && P n).sum

/-- A half of a token as claim C8 reads it: a bare non-negative integer
numeral, of any size. -/
def claimHalf (l : List Char) : Option Nat :=
  if l.isEmpty then none else parseNatAcc 0 l

/-- A token as claim C8 reads it: skipped when empty, when it lacks the
dash separator, or when a half around the first dash is not a
non-negative integer numeral; well-formed otherwise. -/
def claimToken (t : List Char) : Option Range :=
  let t' := trim t
  if t'.isEmpty then none
  else
    match splitOnce '-' t' with
    | none => none
    | some (a, b) =>
      match claimHalf a, claimHalf b with
      | some s, some e => some ⟨s, e⟩
      | _, _ => none

/-- The parser that claim C8 describes. -/
def claimParse (input : List Char) : List Range :=
  (splitOn ',' (clean input)).filterMap claimToken

/-- A u64 numeral as the amended claim C8 reads it: an optional leading
plus sign, then at least one ASCII digit, with a value below 2^64. -/
def u64Numeral (l : List Char) : Option Nat :=
  let d := if l.head? = some '+' then l.tail else l
  if d ≠ [] ∧ d.all (fun c => decide ('0' ≤ c) && decide (c ≤ '9')) then
    let v := d.foldl (fun a c => a * 10 + (c.toNat - 48)) 0
    if v < U64 then some v else none
  else none

/-- A token as the amended claim C8 reads it: like claimToken, but each
half must be a u64 numeral. -/
def amendedToken (t : List Char) : Option Range :=
  let t' := trim t
  if t'.isEmpty then none
  else
    match splitOnce '-' t' with
    | none => none
    | some (a, b) =>
      match u64Numeral a, u64Numeral b with
      | some s, some e => some ⟨s, e⟩
      | _, _ => none

/-- Insertion of a character at position i, for claim C9. -/
def insertAt (l : List Char) (i : Nat) (c : Char) : List Char :=
  l.take i ++ c :: l.drop i

/-- Value x lies in some range of the list R. -/
def covered (R : List Range) (x : Nat) : Prop := ∃ r ∈ R, memR r x

/-- The invariant linking two adjacent ranges of a merged set: a strict
gap (no overlap and no adjacency), lexicographic order, and the fact
that the sweep evaluated end + 1 of the left range without overflow. -/
def gapRel (a b : Range) : Prop :=
  a.end_ + 1 < b.start ∧ lexLe a b ∧ a.end_ + 1 < U64

/-- The doubled candidate built from t by sum_invalid_ids: the value of
the digit string of t concatenated with itself. -/
def dub (t : Nat) : Nat := valBE (decStr t ++ decStr t)

/-- The test a candidate seed t passes inside the candidate loop: its
doubled value parses back as a u64, does not exceed the maximal upper
bound, and lies in the merged set. -/
def passB (merged : List Range) (maxUpper t : Nat) : Bool :=
  decide (dub t < U64) && decide (dub t ≤ maxUpper) && in_merged_ranges (dub t) merged

/-- The doubled values accumulated by one candidate loop starting at s
with cnt iterations. -/
def passVals (merged : List Range) (maxUpper s cnt : Nat) : List Nat :=
  ((List.range' s cnt).filter (passB merged maxUpper)).map dub

/-- The integers of the inclusive interval of r. -/
def intervalList (r : Range) : List Nat :=
  List.range' r.start (r.end_ + 1 - r.start)

/-- The sum accumulated by the part-2 scan of a single range. -/
def scanSum (r : Range) : Nat :=
  ((intervalList r).filter is_invalid_part2).sum

/-- The ASCII decimal numeral of n, as a character list. -/
def natChars (n : Nat) : List Char :=
  (decStr n).map fun d => Char.ofNat (48 + d)

/-- The input text 1-b describing the single range from 1 to b. -/
def oneRangeInput (b : Nat) : List Char := '1' :: '-' :: natChars b

/-- The brute-force reference sum of claim C1: every value from 1 to
bound whose decimal form is an exact double. -/
def bruteDouble (bound : Nat) : Nat :=
  ((List.range (bound + 1)).filter exactDoubleNum).sum

namespace Day5

/-- The sort key order of ranges.sort_by_key(|&(start, _)| start) from
day5.rs merge_ranges: compare on start alone. -/
def keyLe (a b : Nat × Nat) : Prop := a.1 ≤ b.1

instance : DecidableRel keyLe := fun a b =>
  inferInstanceAs (Decidable (a.1 ≤ b.1))

instance : IsTotal (Nat × Nat) keyLe := ⟨fun a b => Nat.le_total a.1 b.1⟩

instance : IsTrans (Nat × Nat) keyLe := ⟨fun _ _ _ => Nat.le_trans⟩

/-- ranges.sort_by_key(|&(start, _)| start) from day5.rs: a stable sort
by start.  Insertion sort with the key order places each element before
the later elements of equal key, so it produces exactly the stable
sort's output, which is unique. -/
def sortRanges (l : List (Nat × Nat)) : List (Nat × Nat) :=
  List.insertionSort keyLe l

/-- The merging sweep of day5.rs merge_ranges: current is the
accumulator; each loop iteration evaluates current.1 + 1, a checked u64
addition, extends the accumulator on overlap or adjacency, and pushes it
on a gap; the final accumulator is pushed after the loop. -/
def sweepC (current : Nat × Nat) : List (Nat × Nat) → Option (List (Nat × Nat))
  | [] => some [current]
  | r :: rs =>
    match addC current.2 1 with
    | none => none
    | some e1 =>
      if r.1 ≤ e1 then sweepC (current.1, max current.2 r.2) rs
      else
        match sweepC r rs with
        | none => none
        | some out => some (current :: out)

/-- merge_ranges from day5.rs: stable sort by start, then sweep. -/
def merge_ranges (ranges : List (Nat × Nat)) : Option (List (Nat × Nat)) :=
  match sortRanges ranges with
  | [] => some []
  | r :: rs => sweepC r rs

/-- The invariant linking two adjacent ranges of a day-5 merged set: a
strict gap, ascending starts, and the fact that the sweep evaluated
current.1 + 1 of the left range without overflow. -/
def mergeRel (a b : Nat × Nat) : Prop :=
  a.2 + 1 < b.1 ∧ a.1 ≤ b.1 ∧ a.2 + 1 < U64

end Day5

/-! ### Decimal-digit lemmas -/

theorem digitsLE_eq : ∀ fuel n, n ≤ fuel → digitsLE fuel n = Nat.digits 10 n := by
  intro fuel
  induction fuel with
  | zero =>
    intro n hn
    interval_cases n
    simp [digitsLE]
  | succ f ih =>
    intro n hn
    match n with
    | 0 => simp [digitsLE]
    | m + 1 =>
      rw [digitsLE, Nat.digits_def' (b := 10) (by norm_num) (Nat.succ_pos m)]
      have hlt : (m + 1) / 10 < m + 1 := Nat.div_lt_self (Nat.succ_pos m) (by norm_num)
      have : (m + 1) / 10 ≤ f := by omega
      rw [ih _ this]

theorem decStr_eq (n : Nat) (hn : n ≠ 0) : decStr n = (Nat.digits 10 n).reverse := by
  unfold decStr
  rw [if_neg hn, digitsLE_eq n n le_rfl]

theorem decStr_zero : decStr 0 = [0] := rfl

theorem decStr_ne_nil (n : Nat) : decStr n ≠ [] := by
  by_cases hn : n = 0
  · subst hn; simp [decStr_zero]
  · rw [decStr_eq n hn]
    simpa using Nat.digits_ne_nil_iff_ne_zero.mpr hn

theorem valBE_decStr (n : Nat) : valBE (decStr n) = n := by
  by_cases hn : n = 0
  · subst hn; rfl
  · rw [decStr_eq n hn]
    unfold valBE
    rw [List.reverse_reverse, Nat.ofDigits_digits]

theorem decStr_lt_ten (n : Nat) : ∀ d ∈ decStr n, d < 10 := by
  by_cases hn : n = 0
  · subst hn
    intro d hd
    simp [decStr_zero] at hd
    omega
  · rw [decStr_eq n hn]
    intro d hd
    rw [List.mem_reverse] at hd
    exact Nat.digits_lt_base (by norm_num) hd

theorem decStr_head_ne_zero (n : Nat) (hn : n ≠ 0) :
    ∀ h t, decStr n = h :: t → h ≠ 0 := by
  intro h t he
  have hne : Nat.digits 10 n ≠ [] := Nat.digits_ne_nil_iff_ne_zero.mpr hn
  have hlast := Nat.getLast_digit_ne_zero 10 hn
  have h1 : (Nat.digits 10 n).reverse.head? = some h := by
    rw [← decStr_eq n hn, he]; rfl
  rw [List.head?_reverse] at h1
  rw [List.getLast?_eq_getLast _ hne] at h1
  have : (Nat.digits 10 n).getLast hne = h := by
    exact Option.some_injective _ h1
  rw [← this]
  exact hlast

theorem decStr_length_pos (n : Nat) : 1 ≤ (decStr n).length :=
  List.length_pos.mpr (decStr_ne_nil n)

theorem decStr_length_eq (t h : Nat) (hh : 1 ≤ h)
    (h1 : 10 ^ (h - 1) ≤ t) (h2 : t < 10 ^ h) : (decStr t).length = h := by
  have ht : t ≠ 0 := by
    have : 0 < 10 ^ (h - 1) := Nat.pos_pow_of_pos _ (by norm_num)
    omega
  rw [decStr_eq t ht, List.length_reverse, Nat.digits_len 10 t (by norm_num) ht]
  have hlog : Nat.log 10 t = h - 1 := by
    apply Nat.log_eq_of_pow_le_of_lt_pow h1
    have : h - 1 + 1 = h := by omega
    rw [this]; exact h2
  omega

theorem decStr_length_window (t : Nat) (ht : t ≠ 0) :
    10 ^ ((decStr t).length - 1) ≤ t ∧ t < 10 ^ (decStr t).length := by
  rw [decStr_eq t ht, List.length_reverse, Nat.digits_len 10 t (by norm_num) ht]
  constructor
  · simpa using Nat.pow_log_le_self 10 ht
  · exact Nat.lt_pow_succ_log_self (by norm_num) t

theorem decStr_length_mono {m n : Nat} (h : m ≤ n) :
    (decStr m).length ≤ (decStr n).length := by
  by_cases hm : m = 0
  · subst hm
    simpa [decStr_zero] using decStr_length_pos n
  · have hn : n ≠ 0 := by omega
    rw [decStr_eq m hm, decStr_eq n hn, List.length_reverse, List.length_reverse]
    exact Nat.le_digits_len_le 10 m n h

theorem decStr_length_le (n k : Nat) (hk : 1 ≤ k) (h : n < 10 ^ k) :
    (decStr n).length ≤ k := by
  by_cases hn : n = 0
  · subst hn; simpa [decStr_zero] using hk
  · have hw := (decStr_length_window n hn).1
    have hlt : 10 ^ ((decStr n).length - 1) < 10 ^ k := lt_of_le_of_lt hw h
    have := (Nat.pow_lt_pow_iff_right (by norm_num : 1 < 10)).mp hlt
    omega

theorem valBE_append (a b : List Nat) :
    valBE (a ++ b) = valBE a * 10 ^ b.length + valBE b := by
  unfold valBE
  rw [List.reverse_append, Nat.ofDigits_append]
  rw [List.length_reverse]
  ring

theorem dub_eq (t : Nat) : dub t = t * 10 ^ (decStr t).length + t := by
  unfold dub
  rw [valBE_append, valBE_decStr]

theorem decStr_valBE_cons (h0 : Nat) (tl : List Nat)
    (hd : ∀ d ∈ h0 :: tl, d < 10) (hh : h0 ≠ 0) :
    decStr (valBE (h0 :: tl)) = h0 :: tl := by
  have hv : valBE (h0 :: tl) ≠ 0 := by
    have : valBE ([h0] ++ tl) = valBE [h0] * 10 ^ tl.length + valBE tl := valBE_append [h0] tl
    have hb : valBE [h0] = h0 := by unfold valBE; simp [Nat.ofDigits]
    have hp : 0 < 10 ^ tl.length := Nat.pos_pow_of_pos _ (by norm_num)
    have : valBE (h0 :: tl) = h0 * 10 ^ tl.length + valBE tl := by
      simpa [hb] using this
    have hpos : 0 < h0 * 10 ^ tl.length := Nat.mul_pos (Nat.pos_of_ne_zero hh) hp
    omega
  rw [decStr_eq _ hv]
  unfold valBE
  have hne : (h0 :: tl).reverse ≠ [] := by simp
  rw [Nat.digits_ofDigits 10 (by norm_num) ((h0 :: tl).reverse)
    (by intro d hdm; rw [List.mem_reverse] at hdm; exact hd d hdm)
    (by
      intro hx
      have h1 : (h0 :: tl).reverse.getLast? = some h0 := by
        rw [List.getLast?_reverse]; rfl
      rw [List.getLast?_eq_getLast _ hx] at h1
      have : (h0 :: tl).reverse.getLast hx = h0 := Option.some_injective _ h1
      rw [this]; exact hh)]
  rw [List.reverse_reverse]

theorem decStr_dub (t : Nat) (ht : t ≠ 0) :
    decStr (dub t) = decStr t ++ decStr t := by
  obtain ⟨h0, tl, he⟩ : ∃ h0 tl, decStr t = h0 :: tl := by
    cases hx : decStr t with
    | nil => exact absurd hx (decStr_ne_nil t)
    | cons a b => exact ⟨a, b, rfl⟩
  have hd : ∀ d ∈ decStr t ++ decStr t, d < 10 := by
    intro d hdm
    rcases List.mem_append.mp hdm with h | h
    · exact decStr_lt_ten t d h
    · exact decStr_lt_ten t d h
  have hcons : decStr t ++ decStr t = h0 :: (tl ++ h0 :: tl) := by
    rw [he]; rfl
  unfold dub
  rw [hcons]
  apply decStr_valBE_cons
  · rw [← hcons]; exact hd
  · exact decStr_head_ne_zero t ht h0 tl he

theorem dub_ne_zero (t : Nat) (ht : t ≠ 0) : dub t ≠ 0 := by
  rw [dub_eq]
  have : 0 < 10 ^ (decStr t).length := Nat.pos_pow_of_pos _ (by norm_num)
  have := Nat.pos_of_ne_zero ht
  positivity

theorem decStr_dub_length (t : Nat) (ht : t ≠ 0) :
    (decStr (dub t)).length = 2 * (decStr t).length := by
  rw [decStr_dub t ht, List.length_append]
  omega

theorem dub_lt_dub {u v h : Nat} (hu : (decStr u).length = h)
    (hv : (decStr v).length = h) (huv : u < v) : dub u < dub v := by
  rw [dub_eq, dub_eq, hu, hv]
  have : 0 < 10 ^ h := Nat.pos_pow_of_pos _ (by norm_num)
  have := Nat.mul_lt_mul_of_lt_of_le huv (le_refl (10 ^ h)) this
  omega

theorem dub_le_dub {u v h : Nat} (hu : (decStr u).length = h)
    (hv : (decStr v).length = h) (huv : u ≤ v) : dub u ≤ dub v := by
  rcases Nat.lt_or_ge u v with hlt | hge
  · exact le_of_lt (dub_lt_dub hu hv hlt)
  · have : u = v := le_antisymm huv hge
    subst this; exact le_rfl

/-! ### Parsing lemmas -/

theorem parseNatAcc_digits : ∀ (l : List Char) (acc : Nat),
    (∀ c ∈ l, '0' ≤ c ∧ c ≤ '9') →
    parseNatAcc acc l = some (l.foldl (fun a c => a * 10 + (c.toNat - 48)) acc) := by
  intro l
  induction l with
  | nil => intro acc _; rfl
  | cons c cs ih =>
    intro acc h
    have hc := h c (List.mem_cons_self c cs)
    simp only [parseNatAcc, digitVal, if_pos hc, List.foldl_cons]
    exact ih _ (fun x hx => h x (List.mem_cons_of_mem _ hx))

theorem parseNatAcc_none : ∀ (l : List Char) (acc : Nat),
    (∃ c ∈ l, ¬('0' ≤ c ∧ c ≤ '9')) → parseNatAcc acc l = none := by
  intro l
  induction l with
  | nil => intro acc h; simp at h
  | cons c cs ih =>
    intro acc h
    by_cases hc : '0' ≤ c ∧ c ≤ '9'
    · simp only [parseNatAcc, digitVal, if_pos hc]
      apply ih
      rcases h with ⟨x, hx, hxd⟩
      rcases List.mem_cons.mp hx with rfl | hx'
      · exact absurd hc hxd
      · exact ⟨x, hx', hxd⟩
    · simp only [parseNatAcc, digitVal, if_neg hc]

theorem parseU64_eq_aux (d : List Char) :
    (if d.isEmpty then none
     else
       match parseNatAcc 0 d with
       | some v => if v < U64 then some v else none
       | none => none) =
    (if d ≠ [] ∧ d.all (fun c => decide ('0' ≤ c) && decide (c ≤ '9')) then
       if d.foldl (fun a c => a * 10 + (c.toNat - 48)) 0 < U64 then
         some (d.foldl (fun a c => a * 10 + (c.toNat - 48)) 0)
       else none
     else none) := by
  cases d with
  | nil => rfl
  | cons c cs =>
    by_cases hall : ∀ x ∈ c :: cs, '0' ≤ x ∧ x ≤ '9'
    · rw [parseNatAcc_digits _ 0 hall]
      have hcond : (c :: cs) ≠ [] ∧ (c :: cs).all (fun x => decide ('0' ≤ x) && decide (x ≤ '9')) := by
        refine ⟨by simp, ?_⟩
        rw [List.all_eq_true]
        intro x hx
        have := hall x hx
        simp [this.1, this.2]
      rw [if_pos hcond]
      rfl
    · have hex : ∃ x ∈ c :: cs, ¬('0' ≤ x ∧ x ≤ '9') := by
        by_contra hno
        push_neg at hno
        exact hall fun x hx => hno x hx
      rw [parseNatAcc_none _ 0 hex]
      have hncond : ¬((c :: cs) ≠ [] ∧ ((c :: cs).all fun x => decide ('0' ≤ x) && decide (x ≤ '9')) = true) := by
        rintro ⟨-, hall2⟩
        rw [List.all_eq_true] at hall2
        rcases hex with ⟨x, hx, hxd⟩
        have := hall2 x hx
        simp at this
        exact hxd this
      rw [if_neg hncond]
      rfl

theorem parseU64_eq_u64Numeral (l : List Char) : parseU64 l = u64Numeral l := by
  unfold parseU64 u64Numeral
  exact parseU64_eq_aux _

theorem parseToken_eq_amendedToken (t : List Char) : parseToken t = amendedToken t := by
  simp only [parseToken, amendedToken, parseU64_eq_u64Numeral]

theorem clean_insertAt (l : List Char) (i : Nat) (c : Char) (hc : c = ' ' ∨ c = '\n') :
    clean (insertAt l i c) = clean l := by
  unfold clean insertAt
  rcases hc with h | h <;> subst h <;>
    simp [List.filter_append] <;>
    rw [← List.filter_append, List.take_append_drop]

/-- C8 (amended): for every input text, parse_ranges returns exactly the
ranges of the well-formed tokens in their order of appearance, where well
formed means: nonempty after trimming, containing the dash separator, and
both halves around the first dash are non-negative integer numerals whose
value fits in 64 bits (with an optional leading plus sign); every other
token is silently skipped, without an error and without affecting the
remaining tokens.  The original claim omits the 64-bit restriction. -/
theorem C8_parse_skips_malformed :
    ∀ input : List Char,
      parse_ranges input = (splitOn ',' (clean input)).filterMap amendedToken := by
  intro input
  unfold parse_ranges
  have : parseToken = amendedToken := funext parseToken_eq_amendedToken
  rw [this]

/-- C8 (counterexample): the token 18446744073709551616-5 has two halves
that are non-negative integers, yet parse_ranges skips it, because 2^64
does not fit in u64; the claim as stated would require the token to be
returned. -/
theorem C8_counterexample :
    parse_ranges ("18446744073709551616-5".data) ≠
      claimParse ("18446744073709551616-5".data) ∧
    parse_ranges ("18446744073709551616-5".data) = [] ∧
    claimParse ("18446744073709551616-5".data) = [⟨18446744073709551616, 5⟩] := by
  refine ⟨?_, ?_, ?_⟩ <;> decide

/-- C9 (amended): inserting a space or a newline anywhere into the input
text leaves the list of ranges returned by parse_ranges unchanged; these
two characters are exactly the ones the parser strips everywhere.  The
original claim also asserted this for tabs and carriage returns, which
the parser does not strip inside a token. -/
theorem C9_whitespace_amended :
    ∀ (l : List Char) (i : Nat) (c : Char), c = ' ' ∨ c = '\n' →
      parse_ranges (insertAt l i c) = parse_ranges l := by
  intro l i c hc
  unfold parse_ranges
  rw [clean_insertAt l i c hc]

/-- C9 (witness): inserting a space into 11-22 at position 2 leaves the
parsed ranges unchanged. -/
theorem C9_whitespace_witness :
    parse_ranges (insertAt ("11-22".data) 2 ' ') = parse_ranges ("11-22".data) :=
  C9_whitespace_amended ("11-22".data) 2 ' ' (Or.inl rfl)

/-- C9 (counterexample): inserting a tab, a whitespace character, into
the text 12-3 changes the result of parse_ranges from one range to none,
refuting the claim for tabs. -/
theorem C9_counterexample :
    parse_ranges (insertAt ("12-3".data) 1 '\t') ≠ parse_ranges ("12-3".data) ∧
    parse_ranges (insertAt ("12-3".data) 1 '\t') = [] ∧
    parse_ranges ("12-3".data) = [⟨12, 3⟩] ∧
    isWs '\t' = true := by
  refine ⟨?_, ?_, ?_, ?_⟩ <;> decide

/-- C6 (amended): the parsers perform no start ≤ end validation: a parsed
range satisfies start ≤ end exactly when the token it came from does.
Every range produced by parse_ranges satisfies start ≤ end provided every
successfully parsed token yields start ≤ end, and likewise for the day-5
parse_range.  The original unconditional claim fails on the token 5-3. -/
theorem C6_range_invariant_amended :
    (∀ input : List Char,
      (∀ t ∈ splitOn ',' (clean input), ∀ r : Range,
        parseToken t = some r → r.start ≤ r.end_) →
      ∀ r ∈ parse_ranges input, r.start ≤ r.end_) ∧
    (∀ line : List Char,
      (∀ a b : List Char, splitOn '-' line = [a, b] →
        ∀ va vb : Nat, parseU64 a = some va → parseU64 b = some vb → va ≤ vb) →
      ∀ p : Nat × Nat, Day5.parse_range line = some p → p.1 ≤ p.2) := by
  constructor
  · intro input h r hr
    rw [parse_ranges] at hr
    rcases List.mem_filterMap.mp hr with ⟨t, ht, hpt⟩
    exact h t ht r hpt
  · intro line h p hp
    unfold Day5.parse_range at hp
    split at hp
    · rename_i a b heq
      cases hpa : parseU64 a with
      | none => simp [hpa] at hp
      | some va =>
        cases hpb : parseU64 b with
        | none => simp [hpa, hpb] at hp
        | some vb =>
          simp [hpa, hpb] at hp
          have hle := h a b heq va vb hpa hpb
          subst hp
          simpa using hle
    · simp at hp

/-- C6 (witness): on the input 11-22 every token parses with start at
most end, so every returned range satisfies the invariant. -/
theorem C6_range_invariant_witness :
    ∀ r ∈ parse_ranges ("11-22".data), r.start ≤ r.end_ := by
  apply C6_range_invariant_amended.1
  intro t ht r hr
  have hs : splitOn ',' (clean ("11-22".data)) = [['1', '1', '-', '2', '2']] := by decide
  rw [hs] at ht
  simp at ht
  subst ht
  have hpt : parseToken ['1', '1', '-', '2', '2'] = some ⟨11, 22⟩ := by decide
  rw [hpt] at hr
  cases hr
  decide

/-- C6 (counterexample): the token 5-3 parses, in both parsers, to a
range with start 5 and end 3, violating the claimed invariant start ≤
end. -/
theorem C6_counterexample :
    parse_ranges ("5-3".data) = [⟨5, 3⟩] ∧
    Day5.parse_range ("5-3".data) = some (5, 3) ∧
    ¬((5 : Nat) ≤ 3) := by
  refine ⟨?_, ?_, ?_⟩ <;> decide

/-! ### Merging lemmas -/

theorem addC_one (a : Nat) (h : a + 1 < U64) : addC a 1 = some (a + 1) := by
  unfold addC
  rw [if_pos h]

theorem addC_eq_some {a b v : Nat} : addC a b = some v ↔ a + b < U64 ∧ v = a + b := by
  unfold addC
  by_cases h : a + b < U64
  · rw [if_pos h]
    simp [h, eq_comm]
  · rw [if_neg h]
    simp [h]

theorem covered_cons {r : Range} {rs : List Range} {x : Nat} :
    covered (r :: rs) x ↔ memR r x ∨ covered rs x := by
  simp [covered]

theorem covered_nil {x : Nat} : ¬ covered [] x := by
  simp [covered]

theorem sweepC_some : ∀ (rs : List Range) (acc : Range),
    acc.end_ + 1 < U64 → (∀ r ∈ rs, r.end_ + 1 < U64) →
    ∃ out, sweepC acc rs = some out := by
  intro rs
  induction rs with
  | nil => intro acc _ _; exact ⟨[acc], rfl⟩
  | cons r rs ih =>
    intro acc hacc hrs
    rw [sweepC]
    simp only [addC_one _ hacc]
    by_cases hc : r.start ≤ acc.end_ + 1
    · rw [if_pos hc]
      apply ih
      · have := hrs r (List.mem_cons_self _ _)
        rcases max_choice acc.end_ r.end_ with hm | hm <;>
          simp only [hm] <;> omega
      · intro x hx
        exact hrs x (List.mem_cons_of_mem _ hx)
    · rw [if_neg hc]
      obtain ⟨out, hout⟩ :=
        ih r (hrs r (List.mem_cons_self _ _)) (fun x hx => hrs x (List.mem_cons_of_mem _ hx))
      exact ⟨acc :: out, by rw [hout]⟩

theorem sweepC_inv : ∀ (rs : List Range) (acc : Range) (out : List Range),
    sweepC acc rs = some out →
    List.Pairwise lexLe rs →
    (∀ r ∈ rs, acc.start ≤ r.start) →
    (∀ r ∈ rs, acc.start = r.start → acc.end_ ≤ r.end_) →
    (∃ e tl, out = ⟨acc.start, e⟩ :: tl ∧ acc.end_ ≤ e) ∧
    List.Chain' gapRel out ∧
    (∀ x, covered out x ↔ memR acc x ∨ covered rs x) ∧
    maxEnds out = max acc.end_ (maxEnds rs) := by
  intro rs
  induction rs with
  | nil =>
    intro acc out hout _ _ _
    rw [sweepC] at hout
    cases hout
    refine ⟨⟨acc.end_, [], rfl, le_rfl⟩, List.chain'_singleton acc, ?_, rfl⟩
    intro x
    simp [covered]
  | cons r rs ih =>
    intro acc out hout hpw hstart hend
    rw [sweepC] at hout
    cases ha : addC acc.end_ 1 with
    | none => simp at hout ⊢; rw [ha] at hout; simp at hout
    | some e1 =>
      simp only [ha] at hout
      obtain ⟨hbound, he1⟩ := addC_eq_some.mp ha
      subst he1
      have hrel := List.pairwise_cons.mp hpw
      have hs1 : acc.start ≤ r.start := hstart r (List.mem_cons_self _ _)
      by_cases hc : r.start ≤ acc.end_ + 1
      · rw [if_pos hc] at hout
        have IH := ih ⟨acc.start, max acc.end_ r.end_⟩ out hout hrel.2
          (fun r' hr' => hstart r' (List.mem_cons_of_mem _ hr'))
          (by
            intro r' hr' heq
            have h1 : acc.end_ ≤ r'.end_ := hend r' (List.mem_cons_of_mem _ hr') heq
            have h2 : r.end_ ≤ r'.end_ := by
              have hlex := hrel.1 r' hr'
              rcases hlex with hlt | ⟨hseq, hle⟩
              · exfalso
                have : acc.start = r'.start := heq
                omega
              · exact hle
            exact max_le h1 h2)
        obtain ⟨⟨e, tl, hout_eq, hee⟩, hchain, hcov, hmax⟩ := IH
        refine ⟨⟨e, tl, hout_eq, le_trans (le_max_left _ _) hee⟩, hchain, ?_, ?_⟩
        · intro x
          rw [hcov x]
          have key : memR ⟨acc.start, max acc.end_ r.end_⟩ x ↔ memR acc x ∨ memR r x := by
            unfold memR
            dsimp only
            constructor
            · rintro ⟨h1, h2⟩
              rcases Nat.lt_or_ge acc.end_ x with hgt | hle
              · right
                refine ⟨by omega, ?_⟩
                rcases max_choice acc.end_ r.end_ with hm | hm <;>
                  rw [hm] at h2 <;> omega
              · exact Or.inl ⟨h1, hle⟩
            · rintro (⟨h1, h2⟩ | ⟨h1, h2⟩)
              · exact ⟨h1, le_trans h2 (le_max_left _ _)⟩
              · exact ⟨le_trans hs1 h1, le_trans h2 (le_max_right _ _)⟩
          rw [key, covered_cons]
          tauto
        · rw [hmax]
          have h2 : maxEnds (r :: rs) = max r.end_ (maxEnds rs) := rfl
          rw [h2]
          exact max_assoc _ _ _
      · rw [if_neg hc] at hout
        cases hs2 : sweepC r rs with
        | none => simp only [hs2] at hout; simp at hout
        | some out1 =>
          simp only [hs2] at hout
          cases hout
          have IH := ih r out1 hs2 hrel.2
            (by
              intro r' hr'
              rcases hrel.1 r' hr' with h | ⟨h, _⟩ <;> omega)
            (by
              intro r' hr' heq
              rcases hrel.1 r' hr' with h | ⟨h2, hle⟩
              · omega
              · exact hle)
          obtain ⟨⟨e, tl, hout1_eq, hee⟩, hchain1, hcov1, hmax1⟩ := IH
          refine ⟨⟨acc.end_, out1, rfl, le_rfl⟩, ?_, ?_, ?_⟩
          · rw [hout1_eq]
            rw [List.chain'_cons]
            constructor
            · refine ⟨?_, ?_, hbound⟩
              · show acc.end_ + 1 < r.start
                omega
              · show lexLe acc ⟨r.start, e⟩
                rcases Nat.lt_or_ge acc.start r.start with h | h
                · exact Or.inl h
                · have heq : acc.start = r.start := le_antisymm hs1 h
                  exact Or.inr ⟨heq, le_trans (hend r (List.mem_cons_self _ _) heq) hee⟩
            · exact hout1_eq ▸ hchain1
          · intro x
            rw [covered_cons, hcov1 x, covered_cons]
          · show max acc.end_ (maxEnds out1) = max acc.end_ (maxEnds (r :: rs))
            rw [hmax1]
            rfl

theorem gapRel_trans : ∀ a b c : Range, gapRel a b → gapRel b c → gapRel a c := by
  intro a b c ⟨hab, hlab, hba⟩ ⟨hbc, hlbc, hbb⟩
  refine ⟨?_, ?_, hba⟩
  · have : b.start ≤ c.start := by
      rcases hlbc with h | ⟨h, _⟩ <;> omega
    omega
  · exact IsTrans.trans a b c hlab hlbc

theorem sortRanges_pairwise (R : List Range) : List.Pairwise lexLe (sortRanges R) :=
  List.sorted_insertionSort lexLe R

theorem sortRanges_perm (R : List Range) : List.Perm (sortRanges R) R :=
  List.perm_insertionSort lexLe R

theorem covered_perm {l1 l2 : List Range} (h : List.Perm l1 l2) (x : Nat) :
    covered l1 x ↔ covered l2 x := by
  simp [covered, h.mem_iff]

theorem foldr_max_perm : ∀ {a b : List Nat}, List.Perm a b →
    a.foldr max 0 = b.foldr max 0 := by
  intro a b hp
  induction hp with
  | nil => rfl
  | cons x _ ih => simp [List.foldr_cons, ih]
  | swap x y l => simp [List.foldr_cons, max_left_comm]
  | trans _ _ ih1 ih2 => exact ih1.trans ih2

theorem maxEnds_perm {l1 l2 : List Range} (h : List.Perm l1 l2) :
    maxEnds l1 = maxEnds l2 := by
  unfold maxEnds
  exact foldr_max_perm (h.map _)

theorem chain_gap_pairwise {M : List Range} (h : List.Chain' gapRel M) :
    List.Pairwise gapRel M :=
  (@List.chain'_iff_pairwise _ _ ⟨gapRel_trans⟩ M).mp h

theorem merge_ranges_inv {R M : List Range} (h : merge_ranges R = some M) :
    List.Chain' gapRel M ∧ (∀ x, covered M x ↔ covered R x) ∧
    maxEnds M = maxEnds R ∧ (M = [] → R = []) := by
  unfold merge_ranges at h
  cases hs : sortRanges R with
  | nil =>
    rw [hs] at h
    cases h
    have hperm := sortRanges_perm R
    rw [hs] at hperm
    have hR : R = [] := List.Perm.eq_nil hperm.symm
    subst hR
    exact ⟨List.chain'_nil, fun x => Iff.rfl, rfl, fun _ => rfl⟩
  | cons r rs =>
    rw [hs] at h
    have hpw := sortRanges_pairwise R
    rw [hs] at hpw
    have hrel := List.pairwise_cons.mp hpw
    have IH := sweepC_inv rs r M h hrel.2
      (by
        intro r' hr'
        rcases hrel.1 r' hr' with h1 | ⟨h1, _⟩ <;> omega)
      (by
        intro r' hr' heq
        rcases hrel.1 r' hr' with h1 | ⟨h1, hle⟩
        · omega
        · exact hle)
    obtain ⟨⟨e, tl, hM, -⟩, hchain, hcov, hmax⟩ := IH
    have hperm := sortRanges_perm R
    rw [hs] at hperm
    refine ⟨hchain, ?_, ?_, ?_⟩
    · intro x
      rw [hcov x, ← covered_cons, covered_perm hperm]
    · rw [hmax]
      have h1 : maxEnds (r :: rs) = max r.end_ (maxEnds rs) := rfl
      rw [← maxEnds_perm hperm, h1]
    · intro hM0
      rw [hM] at hM0
      cases hM0

theorem merge_ranges_some (R : List Range) (h : ∀ r ∈ R, r.end_ + 1 < U64) :
    ∃ M, merge_ranges R = some M := by
  unfold merge_ranges
  cases hs : sortRanges R with
  | nil => exact ⟨[], rfl⟩
  | cons r rs =>
    have hperm := sortRanges_perm R
    rw [hs] at hperm
    have hmem : ∀ x ∈ r :: rs, x.end_ + 1 < U64 := fun x hx =>
      h x (hperm.mem_iff.mp hx)
    exact sweepC_some rs r (hmem r (List.mem_cons_self _ _))
      (fun x hx => hmem x (List.mem_cons_of_mem _ hx))

theorem sweepC_of_chain : ∀ (ms : List Range) (m : Range),
    List.Chain' gapRel (m :: ms) → sweepC m ms = some (m :: ms) := by
  intro ms
  induction ms with
  | nil => intro m _; rfl
  | cons b ms ih =>
    intro m hch
    rw [List.chain'_cons] at hch
    obtain ⟨⟨hgap, hlex, hbound⟩, hch2⟩ := hch
    rw [sweepC]
    simp only [addC_one _ hbound]
    rw [if_neg (by omega)]
    rw [ih b hch2]

theorem merge_ranges_idem (M : List Range) (hch : List.Chain' gapRel M) :
    merge_ranges M = some M := by
  have hpw : List.Pairwise lexLe M :=
    (chain_gap_pairwise hch).imp fun h => h.2.1
  have hsort : sortRanges M = M := List.Sorted.insertionSort_eq hpw
  unfold merge_ranges
  rw [hsort]
  cases M with
  | nil => rfl
  | cons m ms => exact sweepC_of_chain ms m hch

theorem day5_sweepC_some : ∀ (rs : List (Nat × Nat)) (current : Nat × Nat),
    current.2 + 1 < U64 → (∀ r ∈ rs, r.2 + 1 < U64) →
    ∃ out, Day5.sweepC current rs = some out := by
  intro rs
  induction rs with
  | nil => intro c _ _; exact ⟨[c], rfl⟩
  | cons r rs ih =>
    intro c hc hrs
    rw [Day5.sweepC]
    simp only [addC_one _ hc]
    by_cases hcond : r.1 ≤ c.2 + 1
    · rw [if_pos hcond]
      apply ih
      · show max c.2 r.2 + 1 < U64
        have := hrs r (List.mem_cons_self _ _)
        rcases max_choice c.2 r.2 with hm | hm <;> rw [hm] <;> omega
      · intro x hx
        exact hrs x (List.mem_cons_of_mem _ hx)
    · rw [if_neg hcond]
      obtain ⟨out, hout⟩ := ih r (hrs r (List.mem_cons_self _ _))
        (fun x hx => hrs x (List.mem_cons_of_mem _ hx))
      exact ⟨c :: out, by rw [hout]⟩

theorem day5_sweepC_inv :
    ∀ (rs : List (Nat × Nat)) (current : Nat × Nat) (out : List (Nat × Nat)),
    Day5.sweepC current rs = some out →
    (∀ r ∈ rs, current.1 ≤ r.1) →
    List.Pairwise Day5.keyLe rs →
    (∃ e tl, out = (current.1, e) :: tl ∧ current.2 ≤ e) ∧
    List.Chain' Day5.mergeRel out := by
  intro rs
  induction rs with
  | nil =>
    intro c out hout _ _
    rw [Day5.sweepC] at hout
    cases hout
    exact ⟨⟨c.2, [], rfl, le_rfl⟩, List.chain'_singleton c⟩
  | cons r rs ih =>
    intro c out hout hstart hpw
    rw [Day5.sweepC] at hout
    cases ha : addC c.2 1 with
    | none => simp only [ha] at hout; simp at hout
    | some e1 =>
      simp only [ha] at hout
      obtain ⟨hbound, he1⟩ := addC_eq_some.mp ha
      subst he1
      have hrel := List.pairwise_cons.mp hpw
      by_cases hcond : r.1 ≤ c.2 + 1
      · rw [if_pos hcond] at hout
        have IH := ih (c.1, max c.2 r.2) out hout
          (fun r' hr' => hstart r' (List.mem_cons_of_mem _ hr'))
          hrel.2
        obtain ⟨⟨e, tl, hout_eq, hee⟩, hchain⟩ := IH
        exact ⟨⟨e, tl, hout_eq, le_trans (le_max_left _ _) hee⟩, hchain⟩
      · rw [if_neg hcond] at hout
        cases hs2 : Day5.sweepC r rs with
        | none => simp only [hs2] at hout; simp at hout
        | some out1 =>
          simp only [hs2] at hout
          cases hout
          have IH := ih r out1 hs2 (fun r' hr' => hrel.1 r' hr') hrel.2
          obtain ⟨⟨e, tl, hout1_eq, hee⟩, hchain1⟩ := IH
          refine ⟨⟨c.2, out1, rfl, le_rfl⟩, ?_⟩
          rw [hout1_eq, List.chain'_cons]
          refine ⟨⟨?_, ?_, hbound⟩, hout1_eq ▸ hchain1⟩
          · show c.2 + 1 < r.1
            omega
          · show c.1 ≤ r.1
            exact hstart r (List.mem_cons_self _ _)

theorem day5_mergeRel_trans : ∀ a b c : Nat × Nat,
    Day5.mergeRel a b → Day5.mergeRel b c → Day5.mergeRel a c := by
  intro a b c ⟨h1, h2, h3⟩ ⟨h4, h5, h6⟩
  exact ⟨by omega, by omega, h3⟩

theorem day5_chain_pairwise {M : List (Nat × Nat)}
    (h : List.Chain' Day5.mergeRel M) : List.Pairwise Day5.keyLe M :=
  ((@List.chain'_iff_pairwise _ _ ⟨day5_mergeRel_trans⟩ M).mp h).imp
    fun hg => hg.2.1

theorem day5_merge_inv {R M : List (Nat × Nat)}
    (h : Day5.merge_ranges R = some M) :
    List.Chain' Day5.mergeRel M ∧ (M = [] → R = []) := by
  unfold Day5.merge_ranges at h
  cases hs : Day5.sortRanges R with
  | nil =>
    rw [hs] at h
    cases h
    have hperm : List.Perm (Day5.sortRanges R) R := List.perm_insertionSort _ R
    rw [hs] at hperm
    exact ⟨List.chain'_nil, fun _ => List.Perm.eq_nil hperm.symm⟩
  | cons r rs =>
    rw [hs] at h
    have hpw : List.Pairwise Day5.keyLe (Day5.sortRanges R) :=
      List.sorted_insertionSort Day5.keyLe R
    rw [hs] at hpw
    have hrel := List.pairwise_cons.mp hpw
    have IH := day5_sweepC_inv rs r M h (fun r' hr' => hrel.1 r' hr') hrel.2
    obtain ⟨⟨e, tl, hM, -⟩, hchain⟩ := IH
    refine ⟨hchain, ?_⟩
    intro h0
    rw [hM] at h0
    cases h0

theorem day5_merge_some (R : List (Nat × Nat))
    (h : ∀ r ∈ R, r.2 + 1 < U64) :
    ∃ M, Day5.merge_ranges R = some M := by
  unfold Day5.merge_ranges
  cases hs : Day5.sortRanges R with
  | nil => exact ⟨[], rfl⟩
  | cons r rs =>
    have hperm : List.Perm (Day5.sortRanges R) R := List.perm_insertionSort _ R
    rw [hs] at hperm
    have hmem : ∀ x ∈ r :: rs, x.2 + 1 < U64 := fun x hx =>
      h x (hperm.mem_iff.mp hx)
    exact day5_sweepC_some rs r (hmem r (List.mem_cons_self _ _))
      (fun x hx => hmem x (List.mem_cons_of_mem _ hx))

theorem day5_sweepC_of_chain : ∀ (ms : List (Nat × Nat)) (m : Nat × Nat),
    List.Chain' Day5.mergeRel (m :: ms) → Day5.sweepC m ms = some (m :: ms) := by
  intro ms
  induction ms with
  | nil => intro m _; rfl
  | cons b ms ih =>
    intro m hch
    rw [List.chain'_cons] at hch
    obtain ⟨⟨hgap, hle, hbound⟩, hch2⟩ := hch
    rw [Day5.sweepC]
    simp only [addC_one _ hbound]
    rw [if_neg (by omega)]
    rw [ih b hch2]

theorem day5_merge_idem (M : List (Nat × Nat))
    (hch : List.Chain' Day5.mergeRel M) :
    Day5.merge_ranges M = some M := by
  have hpw := day5_chain_pairwise hch
  have hsort : Day5.sortRanges M = M := List.Sorted.insertionSort_eq hpw
  unfold Day5.merge_ranges
  rw [hsort]
  cases M with
  | nil => rfl
  | cons m ms => exact day5_sweepC_of_chain ms m hch

/-- C5: merging is idempotent, for both cited merge functions: whenever
day2.rs merge_ranges returns a merged list, merging that list again
returns it unchanged, and likewise for day5.rs merge_ranges (which
sorts stably by start alone). -/
theorem C5_merge_idempotent :
    (∀ R M : List Range, merge_ranges R = some M → merge_ranges M = some M) ∧
    (∀ R M : List (Nat × Nat), Day5.merge_ranges R = some M →
      Day5.merge_ranges M = some M) := by
  constructor
  · intro R M h
    exact merge_ranges_idem M (merge_ranges_inv h).1
  · intro R M h
    exact day5_merge_idem M (day5_merge_inv h).1

/-- C5 (witness): merging the merged form of three overlapping ranges
again leaves it unchanged, and likewise for the day-5 merge on a
tie-broken input where the stable sort matters. -/
theorem C5_merge_idempotent_witness :
    (merge_ranges [⟨11, 22⟩, ⟨20, 30⟩, ⟨95, 115⟩] = some [⟨11, 30⟩, ⟨95, 115⟩] ∧
     merge_ranges [⟨11, 30⟩, ⟨95, 115⟩] = some [⟨11, 30⟩, ⟨95, 115⟩]) ∧
    (Day5.merge_ranges [(5, 10), (5, 3)] = some [(5, 10)] ∧
     Day5.merge_ranges [(5, 10)] = some [(5, 10)]) :=
  ⟨⟨by decide, C5_merge_idempotent.1 [⟨11, 22⟩, ⟨20, 30⟩, ⟨95, 115⟩] _ (by decide)⟩,
   ⟨by decide, C5_merge_idempotent.2 [(5, 10), (5, 3)] _ (by decide)⟩⟩

/-- C4 (amended): provided every input range has end below 2^64 - 1 (so
that the end + 1 computations of the sweep cannot overflow), merge_ranges
returns a merged list that is sorted ascending by start, whose adjacent
pairs (a, b) satisfy b.start > a.end + 1, and which is empty only if the
input is empty; this holds for the day2.rs merge_ranges and equally for
the day5.rs merge_ranges, which sorts stably by start alone.  The
original unconditional claim fails when a range ends at u64::MAX, where
both sweeps abort on overflow. -/
theorem C4_merged_invariant_amended :
    (∀ R : List Range, (∀ r ∈ R, r.end_ < U64 - 1) →
      ∃ out, merge_ranges R = some out ∧
        List.Chain' (fun a b => a.start ≤ b.start) out ∧
        List.Chain' (fun a b => a.end_ + 1 < b.start) out ∧
        (out = [] → R = [])) ∧
    (∀ R : List (Nat × Nat), (∀ r ∈ R, r.2 < U64 - 1) →
      ∃ out, Day5.merge_ranges R = some out ∧
        List.Chain' (fun a b => a.1 ≤ b.1) out ∧
        List.Chain' (fun a b => a.2 + 1 < b.1) out ∧
        (out = [] → R = [])) := by
  constructor
  · intro R h
    obtain ⟨M, hM⟩ := merge_ranges_some R (by intro r hr; have := h r hr; omega)
    obtain ⟨hchain, -, -, hemp⟩ := merge_ranges_inv hM
    refine ⟨M, hM, ?_, ?_, hemp⟩
    · refine hchain.imp fun a b hg => ?_
      rcases hg.2.1 with h1 | ⟨h1, -⟩ <;> omega
    · exact hchain.imp fun a b hg => hg.1
  · intro R h
    obtain ⟨M, hM⟩ := day5_merge_some R (by intro r hr; have := h r hr; omega)
    obtain ⟨hchain, hemp⟩ := day5_merge_inv hM
    refine ⟨M, hM, ?_, ?_, hemp⟩
    · exact hchain.imp fun a b hg => hg.2.1
    · exact hchain.imp fun a b hg => hg.1

/-- C4 (witness): the invariant on a concrete three-range input for the
day-2 merge, and on the specification scenario ranges for the day-5
merge. -/
theorem C4_merged_invariant_witness :
    ((∀ r ∈ ([⟨11, 22⟩, ⟨20, 30⟩, ⟨95, 115⟩] : List Range), r.end_ < U64 - 1) ∧
     ∃ out, merge_ranges [⟨11, 22⟩, ⟨20, 30⟩, ⟨95, 115⟩] = some out ∧
       List.Chain' (fun a b => a.start ≤ b.start) out ∧
       List.Chain' (fun a b => a.end_ + 1 < b.start) out ∧
       (out = [] → ([⟨11, 22⟩, ⟨20, 30⟩, ⟨95, 115⟩] : List Range) = [])) ∧
    ((∀ r ∈ ([(3, 5), (10, 14), (16, 20), (12, 18)] : List (Nat × Nat)),
        r.2 < U64 - 1) ∧
     ∃ out, Day5.merge_ranges [(3, 5), (10, 14), (16, 20), (12, 18)] = some out ∧
       List.Chain' (fun a b => a.1 ≤ b.1) out ∧
       List.Chain' (fun a b => a.2 + 1 < b.1) out ∧
       (out = [] → ([(3, 5), (10, 14), (16, 20), (12, 18)] : List (Nat × Nat)) = [])) :=
  ⟨⟨by decide, C4_merged_invariant_amended.1 _ (by decide)⟩,
   ⟨by decide, C4_merged_invariant_amended.2 _ (by decide)⟩⟩

/-- C4 (counterexample): on the parsable input
0-18446744073709551615,5-6 the sweep evaluates end + 1 on u64::MAX and
aborts, so there is no output at all, refuting the unconditional claim
(in a build without overflow checks the sweep instead produces the
overlapping, uncoalesced pair (0, u64::MAX), (5, 6)); the day-5 merge
computes the same current.1 + 1 and aborts on the same pair. -/
theorem C4_counterexample :
    parse_ranges ("0-18446744073709551615,5-6".data) = [⟨0, U64 - 1⟩, ⟨5, 6⟩] ∧
    merge_ranges [⟨0, U64 - 1⟩, ⟨5, 6⟩] = none ∧
    ([⟨0, U64 - 1⟩, ⟨5, 6⟩] : List Range) ≠ [] ∧
    Day5.merge_ranges [(0, U64 - 1), (5, 6)] = none ∧
    ([(0, U64 - 1), (5, 6)] : List (Nat × Nat)) ≠ [] := by
  refine ⟨?_, ?_, ?_, ?_, ?_⟩ <;> decide

/-! ### Binary-search lemmas -/

theorem memR_def (r : Range) (x : Nat) : memR r x ↔ r.start ≤ x ∧ x ≤ r.end_ :=
  Iff.rfl

theorem covered_def (R : List Range) (x : Nat) :
    covered R x ↔ ∃ r ∈ R, memR r x := Iff.rfl

theorem pairwise_getD_facts {M : List Range} (hpw : List.Pairwise gapRel M) :
    (∀ i j, i ≤ j → j < M.length →
      (M.getD i ⟨0, 0⟩).start ≤ (M.getD j ⟨0, 0⟩).start) ∧
    (∀ j, j + 1 < M.length →
      (M.getD j ⟨0, 0⟩).end_ + 1 < (M.getD (j + 1) ⟨0, 0⟩).start) := by
  have hpg := List.pairwise_iff_get.mp hpw
  constructor
  · intro i j hij hj
    rcases Nat.eq_or_lt_of_le hij with heq | hlt
    · subst heq; exact le_rfl
    · have hi2 : i < M.length := lt_trans hlt hj
      rw [List.getD_eq_get M _ hi2, List.getD_eq_get M _ hj]
      have hg := hpg ⟨i, hi2⟩ ⟨j, hj⟩ hlt
      rcases hg.2.1 with h | ⟨h, -⟩ <;> omega
  · intro j hj1
    have hj : j < M.length := by omega
    rw [List.getD_eq_get M _ hj, List.getD_eq_get M _ hj1]
    exact (hpg ⟨j, hj⟩ ⟨j + 1, hj1⟩ (Nat.lt_succ_self j)).1

theorem bsearch_correct (x : Nat) (M : List Range) (hpw : List.Pairwise gapRel M) :
    ∀ (fuel lo hi : Nat), hi ≤ M.length → hi - lo ≤ fuel →
      (bsearch x M fuel lo hi = true ↔
        ∃ j, lo ≤ j ∧ j < hi ∧ memR (M.getD j ⟨0, 0⟩) x) := by
  obtain ⟨hS, hG⟩ := pairwise_getD_facts hpw
  intro fuel
  induction fuel with
  | zero =>
    intro lo hi hhi hfuel
    constructor
    · intro h; simp [bsearch] at h
    · rintro ⟨j, h1, h2, -⟩; omega
  | succ f ih =>
    intro lo hi hhi hfuel
    by_cases hlh : lo < hi
    · have hmidlt : lo + (hi - lo) / 2 < hi := by omega
      have hmidge : lo ≤ lo + (hi - lo) / 2 := by omega
      have hmidm : lo + (hi - lo) / 2 < M.length := lt_of_lt_of_le hmidlt hhi
      rw [bsearch]
      simp only [if_pos hlh]
      set mid := lo + (hi - lo) / 2 with hmid
      by_cases hx1 : x < (M.getD mid ⟨0, 0⟩).start
      · rw [if_pos hx1]
        rw [ih lo mid (le_of_lt hmidm) (by omega)]
        constructor
        · rintro ⟨j, h1, h2, h3⟩
          exact ⟨j, h1, by omega, h3⟩
        · rintro ⟨j, h1, h2, h3⟩
          refine ⟨j, h1, ?_, h3⟩
          by_contra hge
          push_neg at hge
          have hjm : j < M.length := lt_of_lt_of_le h2 hhi
          have hsle := hS mid j hge hjm
          have h3a := (memR_def _ _).mp h3
          omega
      · rw [if_neg hx1]
        by_cases hx2 : (M.getD mid ⟨0, 0⟩).end_ < x
        · rw [if_pos hx2]
          rw [ih (mid + 1) hi hhi (by omega)]
          constructor
          · rintro ⟨j, h1, h2, h3⟩
            exact ⟨j, by omega, h2, h3⟩
          · rintro ⟨j, h1, h2, h3⟩
            refine ⟨j, ?_, h2, h3⟩
            by_contra hlt2
            push_neg at hlt2
            have h3a := (memR_def _ _).mp h3
            rcases Nat.eq_or_lt_of_le (by omega : j ≤ mid) with heq | hjlt
            · rw [heq] at h3a
              omega
            · have hj1m : j + 1 < M.length := by omega
              have hgap := hG j hj1m
              have hsle := hS (j + 1) mid (by omega) hmidm
              omega
        · rw [if_neg hx2]
          constructor
          · intro _
            refine ⟨mid, hmidge, hmidlt, (memR_def _ _).mpr ⟨by omega, by omega⟩⟩
          · intro _; rfl
    · constructor
      · intro h
        rw [bsearch] at h
        simp only [if_neg hlh] at h
        cases h
      · rintro ⟨j, h1, h2, -⟩; omega

theorem in_merged_correct {M : List Range} (hch : List.Chain' gapRel M) (x : Nat) :
    in_merged_ranges x M = true ↔ covered M x := by
  unfold in_merged_ranges
  rw [bsearch_correct x M (chain_gap_pairwise hch) M.length 0 M.length le_rfl (by omega)]
  rw [covered_def]
  constructor
  · rintro ⟨j, -, hj, hm⟩
    rw [List.getD_eq_get M _ hj] at hm
    exact ⟨M.get ⟨j, hj⟩, List.get_mem M _ _, hm⟩
  · rintro ⟨r, hr, hm⟩
    obtain ⟨⟨j, hj⟩, hget⟩ := List.mem_iff_get.mp hr
    exact ⟨j, Nat.zero_le _, hj, by rw [List.getD_eq_get M _ hj, hget]; exact hm⟩

/-- C3 (amended): provided every range of R has end below 2^64 - 1 (so
merging completes), binary-search membership over the merged set agrees
with linear membership over the raw list: in_merged_ranges(x,
merge_ranges(R)) is true exactly when some range of R contains x.  The
original unconditional claim fails when a range end equals u64::MAX:
merging then aborts on the end + 1 overflow (and, in a build that wraps
instead, leaves an uncoalesced pair on which the binary search misses
covered values). -/
theorem C3_membership_amended :
    ∀ (x : Nat) (R : List Range), (∀ r ∈ R, r.end_ < U64 - 1) →
      ∃ M, merge_ranges R = some M ∧
        (in_merged_ranges x M = true ↔ ∃ r ∈ R, r.start ≤ x ∧ x ≤ r.end_) := by
  intro x R h
  obtain ⟨M, hM⟩ := merge_ranges_some R (by intro r hr; have := h r hr; omega)
  obtain ⟨hchain, hcov, -, -⟩ := merge_ranges_inv hM
  refine ⟨M, hM, ?_⟩
  rw [in_merged_correct hchain x, hcov x]
  exact Iff.rfl

/-- C3 (witness): membership agreement on the specification's scenario
ranges 3-5, 10-14, 16-20, 12-18 at the fresh value 17. -/
theorem C3_membership_witness :
    (∀ r ∈ ([⟨3, 5⟩, ⟨10, 14⟩, ⟨16, 20⟩, ⟨12, 18⟩] : List Range), r.end_ < U64 - 1) ∧
    ∃ M, merge_ranges [⟨3, 5⟩, ⟨10, 14⟩, ⟨16, 20⟩, ⟨12, 18⟩] = some M ∧
      (in_merged_ranges 17 M = true ↔
        ∃ r ∈ ([⟨3, 5⟩, ⟨10, 14⟩, ⟨16, 20⟩, ⟨12, 18⟩] : List Range),
          r.start ≤ 17 ∧ 17 ≤ r.end_) :=
  ⟨by decide, C3_membership_amended 17 _ (by decide)⟩

/-- C3 (counterexample): with the parsable range list (0, u64::MAX),
(5, 6), the value 7 lies in a raw range, but merging aborts on the end +
1 overflow, so the binary-search membership test cannot agree with
linear membership; on the unmerged pair itself the binary search answers
false for the covered value 7. -/
theorem C3_counterexample :
    merge_ranges [⟨0, U64 - 1⟩, ⟨5, 6⟩] = none ∧
    (∃ r ∈ ([⟨0, U64 - 1⟩, ⟨5, 6⟩] : List Range), r.start ≤ 7 ∧ 7 ≤ r.end_) ∧
    in_merged_ranges 7 [⟨0, U64 - 1⟩, ⟨5, 6⟩] = false := by
  refine ⟨?_, ?_, ?_⟩ <;> decide

/-! ### Scan-aggregator lemmas -/

theorem is_invalid_eq_multiRepeat (n : Nat) :
    is_invalid_part2 n = multiRepeatNum n := by
  unfold is_invalid_part2 multiRepeatNum multiRepeatB blocksMatch
  rw [Bool.eq_iff_iff, List.any_eq_true, List.any_eq_true]
  constructor
  · rintro ⟨j, hj, hcond⟩
    refine ⟨j, hj, ?_⟩
    by_cases h1 : (decStr n).length % (j + 1) ≠ 0
    · rw [if_pos h1] at hcond
      cases hcond
    · by_cases h2 : (decStr n).length / (j + 1) < 2
      · rw [if_neg h1, if_pos h2] at hcond
        cases hcond
      · rw [if_neg h1, if_neg h2] at hcond
        push_neg at h1 h2
        simp only [Bool.and_eq_true, decide_eq_true_eq]
        refine ⟨⟨h1, h2⟩, ?_⟩
        rw [List.all_eq_true] at hcond ⊢
        intro i hi
        rw [List.mem_range] at hi
        match i, hi with
        | 0, _ =>
          simp
        | k + 1, hk =>
          have hk2 : k ∈ List.range ((decStr n).length / (j + 1) - 1) := by
            rw [List.mem_range]; omega
          exact hcond k hk2
  · rintro ⟨j, hj, hcond⟩
    refine ⟨j, hj, ?_⟩
    simp only [Bool.and_eq_true, decide_eq_true_eq] at hcond
    obtain ⟨⟨h1, h2⟩, hall⟩ := hcond
    rw [if_neg (by omega), if_neg (by omega)]
    rw [List.all_eq_true] at hall ⊢
    intro k hk
    rw [List.mem_range] at hk
    have : k + 1 ∈ List.range ((decStr n).length / (j + 1)) := by
      rw [List.mem_range]; omega
    exact hall (k + 1) this

theorem addC_some {a b : Nat} (h : a + b < U64) : addC a b = some (a + b) := by
  unfold addC
  rw [if_pos h]

theorem part2Loop_eq : ∀ (fuel t acc : Nat),
    acc + ((List.range' t fuel).filter is_invalid_part2).sum < U64 →
    part2Loop fuel t acc =
      some (acc + ((List.range' t fuel).filter is_invalid_part2).sum) := by
  intro fuel
  induction fuel with
  | zero =>
    intro t acc _
    simp [part2Loop]
  | succ f ih =>
    intro t acc h
    rw [part2Loop]
    rw [List.range'_succ] at h ⊢
    by_cases hp : is_invalid_part2 t
    · rw [if_pos hp]
      rw [List.filter_cons_of_pos hp] at h ⊢
      rw [List.sum_cons] at h ⊢
      have hadd : acc + t < U64 := by omega
      simp only [addC_some hadd]
      rw [ih (t + 1) (acc + t) (by omega)]
      congr 1
      omega
    · rw [if_neg hp]
      rw [List.filter_cons_of_neg (by simpa using hp)] at h ⊢
      exact ih (t + 1) acc h

theorem part2Ranges_eq : ∀ (rs : List Range) (acc : Nat),
    acc + (rs.map scanSum).sum < U64 →
    part2Ranges rs acc = some (acc + (rs.map scanSum).sum) := by
  intro rs
  induction rs with
  | nil =>
    intro acc _
    simp [part2Ranges]
  | cons r rs ih =>
    intro acc h
    rw [part2Ranges]
    rw [List.map_cons, List.sum_cons] at h
    have hloop := part2Loop_eq (r.end_ + 1 - r.start) r.start acc (by
      have : ((List.range' r.start (r.end_ + 1 - r.start)).filter is_invalid_part2).sum = scanSum r := rfl
      omega)
    rw [show ((List.range' r.start (r.end_ + 1 - r.start)).filter is_invalid_part2).sum = scanSum r from rfl] at hloop
    simp only [hloop]
    rw [ih (acc + scanSum r) (by omega)]
    rw [List.map_cons, List.sum_cons]
    congr 1
    omega

theorem inAnyB_iff (R : List Range) (x : Nat) :
    inAnyB R x = true ↔ covered R x := by
  simp [inAnyB, covered, List.any_eq_true]

theorem le_maxEnds_of_mem : ∀ {M : List Range} {r : Range}, r ∈ M → r.end_ ≤ maxEnds M := by
  intro M
  induction M with
  | nil => intro r hr; cases hr
  | cons a M ih =>
    intro r hr
    rcases List.mem_cons.mp hr with rfl | hr'
    · exact le_max_left _ _
    · exact le_trans (ih hr') (le_max_right _ _)

theorem covered_le_maxEnds {M : List Range} {x : Nat} (h : covered M x) :
    x ≤ maxEnds M := by
  obtain ⟨r, hr, hm⟩ := h
  exact le_trans ((memR_def _ _).mp hm).2 (le_maxEnds_of_mem hr)

theorem mem_intervalList {r : Range} {m : Nat} :
    m ∈ intervalList r ↔ memR r m := by
  unfold intervalList
  rw [List.mem_range'_1, memR_def]
  omega

theorem merged_scan_sum {M : List Range} (hch : List.Chain' gapRel M) (P : Nat → Bool) :
    (M.map (fun r => ((intervalList r).filter P).sum)).sum =
      ((List.range (maxEnds M + 1)).filter fun n => inAnyB M n && P n).sum := by
  have hpw := chain_gap_pairwise hch
  have hjoin : (M.map (fun r => ((intervalList r).filter P).sum)).sum =
      ((M.map (fun r => (intervalList r).filter P)).join).sum := by
    rw [List.sum_join, List.map_map]
    rfl
  rw [hjoin]
  apply List.Perm.sum_eq
  apply (List.perm_ext_iff_of_nodup ?nd1 ?nd2).mpr
  case nd1 =>
    rw [List.nodup_join]
    constructor
    · intro l hl
      rw [List.mem_map] at hl
      obtain ⟨r, hr, rfl⟩ := hl
      exact (List.nodup_range' _ _).filter _
    · rw [List.pairwise_map]
      refine hpw.imp ?_
      intro a b hg m hma hmb
      rw [List.mem_filter] at hma hmb
      have h1 := mem_intervalList.mp hma.1
      have h2 := mem_intervalList.mp hmb.1
      rw [memR_def] at h1 h2
      obtain ⟨hgap, -, -⟩ := hg
      omega
  case nd2 =>
    exact (List.nodup_range _).filter _
  intro n
  rw [List.mem_join, List.mem_filter, List.mem_range]
  constructor
  · rintro ⟨bl, hbl, hn⟩
    rw [List.mem_map] at hbl
    obtain ⟨r, hr, rfl⟩ := hbl
    rw [List.mem_filter] at hn
    have hm := mem_intervalList.mp hn.1
    have hcv : covered M n := ⟨r, hr, hm⟩
    refine ⟨?_, ?_⟩
    · have := covered_le_maxEnds hcv
      omega
    · rw [Bool.and_eq_true]
      exact ⟨(inAnyB_iff _ _).mpr hcv, hn.2⟩
  · rintro ⟨hlt, hn⟩
    rw [Bool.and_eq_true] at hn
    obtain ⟨r, hr, hm⟩ := (inAnyB_iff _ _).mp hn.1
    refine ⟨(intervalList r).filter P, ?_, ?_⟩
    · rw [List.mem_map]
      exact ⟨r, hr, rfl⟩
    · rw [List.mem_filter]
      exact ⟨mem_intervalList.mpr hm, hn.2⟩

theorem qualSum_stable (R : List Range) (P : Nat → Bool) (B : Nat)
    (hB : maxEnds R ≤ B) : qualSum R P B = qualSum R P (maxEnds R) := by
  unfold qualSum
  have hsplit : B + 1 = (maxEnds R + 1) + (B - maxEnds R) := by omega
  rw [hsplit, List.range_add, List.filter_append, List.sum_append]
  have hnil : ((List.range (B - maxEnds R)).map (fun i => maxEnds R + 1 + i)).filter
      (fun n => inAnyB R n && P n) = [] := by
    rw [List.filter_eq_nil]
    intro a ha
    rw [List.mem_map] at ha
    obtain ⟨i, -, rfl⟩ := ha
    intro hcontra
    rw [Bool.and_eq_true] at hcontra
    have := covered_le_maxEnds ((inAnyB_iff _ _).mp hcontra.1)
    omega
  rw [hnil]
  simp

theorem sum2_eq (input : List Char)
    (hends : ∀ r ∈ parse_ranges input, r.end_ < U64 - 1)
    (hsum : qualSum (parse_ranges input) multiRepeatNum (maxEnds (parse_ranges input)) < U64) :
    sum_invalid_ids_part2 input =
      some (qualSum (parse_ranges input) multiRepeatNum (maxEnds (parse_ranges input))) := by
  unfold sum_invalid_ids_part2
  by_cases hR : (parse_ranges input).isEmpty
  · rw [if_pos hR]
    have hnil : parse_ranges input = [] := by
      cases h : parse_ranges input
      · rfl
      · rw [h] at hR; simp [List.isEmpty] at hR
    rw [hnil]
    unfold qualSum maxEnds
    simp [inAnyB]
  · rw [if_neg hR]
    obtain ⟨M, hM⟩ := merge_ranges_some (parse_ranges input)
      (by intro r hr; have := hends r hr; omega)
    simp only [hM]
    obtain ⟨hch, hcov, hmax, -⟩ := merge_ranges_inv hM
    have hkey : (M.map scanSum).sum =
        qualSum (parse_ranges input) multiRepeatNum (maxEnds (parse_ranges input)) := by
      have h1 := merged_scan_sum hch is_invalid_part2
      have h2 : (M.map scanSum).sum =
          (M.map (fun r => ((intervalList r).filter is_invalid_part2).sum)).sum := rfl
      rw [h2, h1]
      unfold qualSum
      rw [hmax]
      apply congrArg
      apply List.filter_congr
      intro n _
      rw [is_invalid_eq_multiRepeat]
      congr 1
      rw [Bool.eq_iff_iff, inAnyB_iff, inAnyB_iff]
      exact hcov n
    rw [part2Ranges_eq M 0 (by rw [hkey]; omega)]
    rw [hkey]
    rw [Nat.zero_add]

/-- C2 (amended): provided every parsed range end is below 2^64 - 1 and
the qualifying sum fits in u64, the bounded-scan aggregator returns
exactly the sum of all values n lying in at least one parsed range whose
decimal string satisfies MultiRepeat (some p with 1 ≤ p ≤ len/2, p
dividing len, len/p ≥ 2, all length-p blocks equal to the first), each
value counted exactly once even when raw ranges overlap; moreover the
reference bound is adequate, since enlarging it leaves the reference sum
unchanged.  The original unconditional claim fails on u64 overflow. -/
theorem C2_bounded_scan_amended :
    ∀ input : List Char,
      (∀ r ∈ parse_ranges input, r.end_ < U64 - 1) →
      qualSum (parse_ranges input) multiRepeatNum (maxEnds (parse_ranges input)) < U64 →
      sum_invalid_ids_part2 input =
        some (qualSum (parse_ranges input) multiRepeatNum (maxEnds (parse_ranges input))) ∧
      ∀ B, maxEnds (parse_ranges input) ≤ B →
        qualSum (parse_ranges input) multiRepeatNum B =
          qualSum (parse_ranges input) multiRepeatNum (maxEnds (parse_ranges input)) := by
  intro input h1 h2
  exact ⟨sum2_eq input h1 h2, fun B hB => qualSum_stable _ _ B hB⟩

set_option maxRecDepth 40000 in
/-- C2 (witness): the bounded-scan aggregator on 11-22,95-115 equals the
reference sum of the MultiRepeat values covered by the ranges. -/
theorem C2_bounded_scan_witness :
    (∀ r ∈ parse_ranges ("11-22,95-115".data), r.end_ < U64 - 1) ∧
    sum_invalid_ids_part2 ("11-22,95-115".data) =
      some (qualSum (parse_ranges ("11-22,95-115".data)) multiRepeatNum
        (maxEnds (parse_ranges ("11-22,95-115".data)))) :=
  ⟨by decide, (C2_bounded_scan_amended _ (by decide) (by decide)).1⟩

/-- C2 (counterexample): on the parsable input 0-18446744073709551615,5-6
the merge step aborts on the end + 1 overflow before the scan starts, so
the aggregator returns no sum at all, although qualifying values (such as
11) lie in the parsed ranges; the claim as stated promises their sum. -/
theorem C2_counterexample :
    sum_invalid_ids_part2 ("0-18446744073709551615,5-6".data) = none ∧
    (∃ r ∈ parse_ranges ("0-18446744073709551615,5-6".data),
      r.start ≤ 11 ∧ 11 ≤ r.end_) ∧
    multiRepeatNum 11 = true := by
  refine ⟨?_, ?_, ?_⟩ <;> decide

/-! ### Candidate-generation lemmas -/

theorem passB_true_iff {M : List Range} {maxU t : Nat} :
    passB M maxU t = true ↔
      dub t < U64 ∧ dub t ≤ maxU ∧ in_merged_ranges (dub t) M = true := by
  unfold passB
  simp [Bool.and_eq_true, and_assoc]

theorem passVals_zero (M : List Range) (maxU t : Nat) :
    passVals M maxU t 0 = [] := rfl

theorem passVals_succ (M : List Range) (maxU t fuel : Nat) :
    passVals M maxU t (fuel + 1) =
      (if passB M maxU t then [dub t] else []) ++ passVals M maxU (t + 1) fuel := by
  unfold passVals
  rw [List.range'_succ]
  by_cases hp : passB M maxU t
  · rw [List.filter_cons_of_pos hp, if_pos hp]
    rfl
  · rw [List.filter_cons_of_neg (by simpa using hp), if_neg hp]
    rfl

theorem part1Loop_eq (M : List Range) (maxU h : Nat) :
    ∀ (fuel t acc : Nat),
      (∀ u, t ≤ u → u < t + fuel → (decStr u).length = h ∧ u ≠ 0) →
      acc + (passVals M maxU t fuel).sum < U64 →
      part1Loop M maxU fuel t acc = some (acc + (passVals M maxU t fuel).sum) := by
  intro fuel
  induction fuel with
  | zero =>
    intro t acc _ _
    simp [part1Loop, passVals_zero]
  | succ f ih =>
    intro t acc hwin hsum
    rw [part1Loop]
    rw [show valBE (decStr t ++ decStr t) = dub t from rfl]
    rw [passVals_succ] at hsum ⊢
    have hwt := hwin t le_rfl (by omega)
    by_cases h1 : dub t < U64
    · rw [if_pos h1]
      by_cases h2 : maxU < dub t
      · rw [if_pos h2]
        have hempty : passVals M maxU (t + 1) f = [] := by
          unfold passVals
          have hfil : (List.range' (t + 1) f).filter (passB M maxU) = [] := by
            rw [List.filter_eq_nil]
            intro u hu
            rw [List.mem_range'_1] at hu
            have hwu := hwin u (by omega) (by omega)
            have hmono : dub t ≤ dub u := dub_le_dub hwt.1 hwu.1 (by omega)
            intro hcontra
            have := (passB_true_iff.mp hcontra).2.1
            omega
          rw [hfil]
          rfl
        have hneg : ¬ (passB M maxU t = true) := by
          intro hcontra
          have := (passB_true_iff.mp hcontra).2.1
          omega
        rw [if_neg hneg, hempty] at hsum ⊢
        simp
      · rw [if_neg h2]
        by_cases h3 : in_merged_ranges (dub t) M
        · rw [if_pos h3]
          have hpt : passB M maxU t = true :=
            passB_true_iff.mpr ⟨h1, by omega, h3⟩
          rw [if_pos hpt] at hsum ⊢
          rw [List.singleton_append, List.sum_cons] at hsum ⊢
          have haddb : acc + dub t < U64 := by omega
          simp only [addC_some haddb]
          rw [ih (t + 1) (acc + dub t) (fun u hu1 hu2 => hwin u (by omega) (by omega))
            (by omega)]
          congr 1
          omega
        · rw [if_neg h3]
          have hneg : ¬ (passB M maxU t = true) := by
            intro hcontra
            exact h3 ((passB_true_iff.mp hcontra).2.2)
          rw [if_neg hneg] at hsum ⊢
          rw [List.nil_append] at hsum ⊢
          exact ih (t + 1) acc (fun u hu1 hu2 => hwin u (by omega) (by omega)) hsum
    · rw [if_neg h1]
      have hneg : ¬ (passB M maxU t = true) := by
        intro hcontra
        exact h1 (passB_true_iff.mp hcontra).1
      rw [if_neg hneg] at hsum ⊢
      rw [List.nil_append] at hsum ⊢
      exact ih (t + 1) acc (fun u hu1 hu2 => hwin u (by omega) (by omega)) hsum

theorem pow10_lt_U64 {e : Nat} (he : e ≤ 10) : 10 ^ e < U64 := by
  have h1 : (10 : Nat) ^ e ≤ 10 ^ 10 := Nat.pow_le_pow_right (by norm_num) he
  have h2 : (10 : Nat) ^ 10 < U64 := by decide
  omega

theorem pow10C_some {e : Nat} (he : e ≤ 10) : pow10C e = some (10 ^ e) := by
  unfold pow10C
  rw [if_pos (pow10_lt_U64 he)]

theorem part1Lens_eq (M : List Range) (maxU : Nat) :
    ∀ (Ls : List Nat) (acc : Nat),
      (∀ L ∈ Ls, 2 ≤ L ∧ L % 2 = 0 ∧ L / 2 ≤ 10) →
      acc + (Ls.map (fun L =>
        (passVals M maxU (10 ^ (L / 2 - 1)) (10 ^ (L / 2) - 10 ^ (L / 2 - 1))).sum)).sum < U64 →
      part1Lens M maxU Ls acc =
        some (acc + (Ls.map (fun L =>
          (passVals M maxU (10 ^ (L / 2 - 1)) (10 ^ (L / 2) - 10 ^ (L / 2 - 1))).sum)).sum) := by
  intro Ls
  induction Ls with
  | nil =>
    intro acc _ _
    simp [part1Lens]
  | cons L Ls ih =>
    intro acc hL hsum
    obtain ⟨hL2, hLev, hLh⟩ := hL L (List.mem_cons_self _ _)
    rw [part1Lens]
    rw [pow10C_some (by omega : L / 2 - 1 ≤ 10), pow10C_some hLh]
    rw [List.map_cons, List.sum_cons] at hsum
    have hple : 10 ^ (L / 2 - 1) ≤ 10 ^ (L / 2) :=
      Nat.pow_le_pow_right (by norm_num) (by omega)
    have hppos : 1 ≤ 10 ^ (L / 2 - 1) := Nat.one_le_pow _ _ (by norm_num)
    have hloop := part1Loop_eq M maxU (L / 2)
      (10 ^ (L / 2) - 10 ^ (L / 2 - 1)) (10 ^ (L / 2 - 1)) acc
      (by
        intro u hu1 hu2
        have hub : u < 10 ^ (L / 2) := by omega
        refine ⟨decStr_length_eq u (L / 2) (by omega) hu1 hub, by omega⟩)
      (by omega)
    simp only [hloop]
    rw [ih (acc + (passVals M maxU (10 ^ (L / 2 - 1))
        (10 ^ (L / 2) - 10 ^ (L / 2 - 1))).sum)
      (fun L' hL' => hL L' (List.mem_cons_of_mem _ hL')) (by omega)]
    rw [List.map_cons, List.sum_cons]
    congr 1
    omega

theorem maxEnds_lt : ∀ (R : List Range) (B : Nat), 0 < B →
    (∀ r ∈ R, r.end_ < B) → maxEnds R < B := by
  intro R
  induction R with
  | nil => intro B hB _; simpa [maxEnds] using hB
  | cons r R ih =>
    intro B hB h
    have h1 := h r (List.mem_cons_self _ _)
    have h2 := ih B hB (fun x hx => h x (List.mem_cons_of_mem _ hx))
    show max r.end_ (maxEnds R) < B
    exact Nat.max_lt.mpr ⟨h1, h2⟩

theorem exactDouble_dub {t : Nat} (ht : t ≠ 0) : exactDoubleNum (dub t) = true := by
  unfold exactDoubleNum exactDoubleB
  rw [decStr_dub t ht, List.length_append]
  rw [Bool.and_eq_true, decide_eq_true_eq, decide_eq_true_eq]
  constructor
  · omega
  · have h2 : ((decStr t).length + (decStr t).length) / 2 = (decStr t).length := by omega
    rw [h2, List.take_left, List.drop_left]

theorem exactDouble_decompose {n : Nat} (hn : exactDoubleNum n = true) :
    ∃ t, t ≠ 0 ∧ dub t = n ∧ 2 * (decStr t).length = (decStr n).length := by
  have hnz : n ≠ 0 := by
    intro h0
    subst h0
    exact absurd hn (by decide)
  unfold exactDoubleNum exactDoubleB at hn
  rw [Bool.and_eq_true, decide_eq_true_eq, decide_eq_true_eq] at hn
  obtain ⟨heven, hhalf⟩ := hn
  have hsplit : decStr n = (decStr n).take ((decStr n).length / 2) ++
      (decStr n).drop ((decStr n).length / 2) :=
    (List.take_append_drop _ _).symm
  have hpos := decStr_length_pos n
  have hHpos : 1 ≤ (decStr n).length / 2 := by omega
  have hlen_take : ((decStr n).take ((decStr n).length / 2)).length =
      (decStr n).length / 2 := by
    rw [List.length_take]
    omega
  obtain ⟨h0, tl, hcons⟩ :
      ∃ h0 tl, (decStr n).take ((decStr n).length / 2) = h0 :: tl := by
    cases hx : (decStr n).take ((decStr n).length / 2) with
    | nil => rw [hx] at hlen_take; simp at hlen_take; omega
    | cons a b => exact ⟨a, b, rfl⟩
  obtain ⟨tl2, hs2⟩ : ∃ tl2, decStr n = h0 :: tl2 := by
    refine ⟨tl ++ (decStr n).drop ((decStr n).length / 2), ?_⟩
    conv_lhs => rw [hsplit]
    rw [hcons]
    rfl
  have hh0 : h0 ≠ 0 := decStr_head_ne_zero n hnz h0 tl2 hs2
  have hdect : decStr (valBE ((decStr n).take ((decStr n).length / 2))) =
      (decStr n).take ((decStr n).length / 2) := by
    rw [hcons]
    apply decStr_valBE_cons
    · intro d hd
      apply decStr_lt_ten n
      rw [← hcons] at hd
      exact List.take_subset _ _ hd
    · exact hh0
  refine ⟨valBE ((decStr n).take ((decStr n).length / 2)), ?_, ?_, ?_⟩
  · intro h0t
    rw [h0t, decStr_zero, hcons] at hdect
    injection hdect with ha hb
    exact hh0 ha.symm
  · unfold dub
    rw [hdect]
    nth_rewrite 2 [hhalf]
    rw [← hsplit, valBE_decStr]
  · rw [hdect, hlen_take]
    omega

theorem mem_evenLens {D L : Nat} : L ∈ evenLens D ↔ 2 ≤ L ∧ L % 2 = 0 ∧ L ≤ D := by
  unfold evenLens
  rw [List.mem_map]
  constructor
  · rintro ⟨i, hi, rfl⟩
    rw [List.mem_range] at hi
    omega
  · rintro ⟨h1, h2, h3⟩
    refine ⟨L / 2 - 1, ?_, by omega⟩
    rw [List.mem_range]
    omega

theorem evenLens_pairwise (D : Nat) : List.Pairwise (· < ·) (evenLens D) := by
  unfold evenLens
  rw [List.pairwise_map]
  refine (List.pairwise_lt_range (D / 2)).imp ?_
  intro a b h
  show 2 + 2 * a < 2 + 2 * b
  omega

theorem mem_passVals {M : List Range} {maxU h n : Nat} (hh : 1 ≤ h) :
    n ∈ passVals M maxU (10 ^ (h - 1)) (10 ^ h - 10 ^ (h - 1)) ↔
      ∃ t, 10 ^ (h - 1) ≤ t ∧ t < 10 ^ h ∧ passB M maxU t = true ∧ n = dub t := by
  unfold passVals
  rw [List.mem_map]
  have hple : 10 ^ (h - 1) ≤ 10 ^ h := Nat.pow_le_pow_right (by norm_num) (by omega)
  constructor
  · rintro ⟨t, ht, rfl⟩
    rw [List.mem_filter, List.mem_range'_1] at ht
    exact ⟨t, ht.1.1, by omega, ht.2, rfl⟩
  · rintro ⟨t, h1, h2, h3, rfl⟩
    refine ⟨t, ?_, rfl⟩
    rw [List.mem_filter, List.mem_range'_1]
    exact ⟨⟨h1, by omega⟩, h3⟩

theorem passVals_facts {M : List Range} (hch : List.Chain' gapRel M)
    {maxU : Nat} {L : Nat} (hL2 : 2 ≤ L) (hLev : L % 2 = 0) :
    ∀ n ∈ passVals M maxU (10 ^ (L / 2 - 1)) (10 ^ (L / 2) - 10 ^ (L / 2 - 1)),
      (decStr n).length = L ∧ n ≠ 0 ∧ n ≤ maxU ∧ covered M n ∧
      exactDoubleNum n = true := by
  intro n hn
  have hh : 1 ≤ L / 2 := by omega
  obtain ⟨t, ht1, ht2, htp, rfl⟩ := (mem_passVals hh).mp hn
  have htnz : t ≠ 0 := by
    have := Nat.one_le_pow (L / 2 - 1) 10 (by norm_num)
    omega
  have hlent : (decStr t).length = L / 2 := decStr_length_eq t (L / 2) hh ht1 ht2
  obtain ⟨hd1, hd2, hd3⟩ := passB_true_iff.mp htp
  refine ⟨?_, dub_ne_zero t htnz, hd2, (in_merged_correct hch _).mp hd3,
    exactDouble_dub htnz⟩
  rw [decStr_dub_length t htnz, hlent]
  omega

theorem cand_sum_eq {M : List Range} (hch : List.Chain' gapRel M)
    (hU : maxEnds M < U64) :
    ((evenLens ((decStr (maxEnds M)).length)).map
      (fun L => (passVals M (maxEnds M) (10 ^ (L / 2 - 1))
        (10 ^ (L / 2) - 10 ^ (L / 2 - 1))).sum)).sum =
      ((List.range (maxEnds M + 1)).filter
        fun n => inAnyB M n && exactDoubleNum n).sum := by
  have hjoin : ((evenLens ((decStr (maxEnds M)).length)).map
      (fun L => (passVals M (maxEnds M) (10 ^ (L / 2 - 1))
        (10 ^ (L / 2) - 10 ^ (L / 2 - 1))).sum)).sum =
      (((evenLens ((decStr (maxEnds M)).length)).map
        (fun L => passVals M (maxEnds M) (10 ^ (L / 2 - 1))
          (10 ^ (L / 2) - 10 ^ (L / 2 - 1)))).join).sum := by
    rw [List.sum_join, List.map_map]
    rfl
  rw [hjoin]
  apply List.Perm.sum_eq
  apply (List.perm_ext_iff_of_nodup ?nd1 ?nd2).mpr
  case nd1 =>
    rw [List.nodup_join]
    constructor
    · intro bl hbl
      rw [List.mem_map] at hbl
      obtain ⟨L, hL, rfl⟩ := hbl
      obtain ⟨hL2, hLev, hLD⟩ := mem_evenLens.mp hL
      have hh : 1 ≤ L / 2 := by omega
      unfold passVals
      apply List.Nodup.map_on
      · intro x hx y hy hxy
        rw [List.mem_filter, List.mem_range'_1] at hx hy
        have hple : 10 ^ (L / 2 - 1) ≤ 10 ^ (L / 2) :=
          Nat.pow_le_pow_right (by norm_num) (by omega)
        have hlx : (decStr x).length = L / 2 :=
          decStr_length_eq x (L / 2) hh hx.1.1 (by omega)
        have hly : (decStr y).length = L / 2 :=
          decStr_length_eq y (L / 2) hh hy.1.1 (by omega)
        rw [dub_eq, dub_eq, hlx, hly] at hxy
        have hxy2 : x * (10 ^ (L / 2) + 1) = y * (10 ^ (L / 2) + 1) := by
          have e1 : x * (10 ^ (L / 2) + 1) = x * 10 ^ (L / 2) + x := by ring
          have e2 : y * (10 ^ (L / 2) + 1) = y * 10 ^ (L / 2) + y := by ring
          rw [e1, e2]
          omega
        exact Nat.eq_of_mul_eq_mul_right (by positivity) hxy2
      · exact (List.nodup_range' _ _).filter _
    · rw [List.pairwise_map]
      refine List.Pairwise.imp_of_mem ?_ (evenLens_pairwise _)
      intro L L' hL hL' hlt n hn1 hn2
      obtain ⟨hL2, hLev, -⟩ := mem_evenLens.mp hL
      obtain ⟨hL2', hLev', -⟩ := mem_evenLens.mp hL'
      have f1 := (passVals_facts hch hL2 hLev n hn1).1
      have f2 := (passVals_facts hch hL2' hLev' n hn2).1
      omega
  case nd2 =>
    exact (List.nodup_range _).filter _
  intro n
  rw [List.mem_join, List.mem_filter, List.mem_range]
  constructor
  · rintro ⟨bl, hbl, hn⟩
    rw [List.mem_map] at hbl
    obtain ⟨L, hL, rfl⟩ := hbl
    obtain ⟨hL2, hLev, -⟩ := mem_evenLens.mp hL
    obtain ⟨-, -, hle, hcv, hex⟩ := passVals_facts hch hL2 hLev n hn
    refine ⟨by omega, ?_⟩
    rw [Bool.and_eq_true]
    exact ⟨(inAnyB_iff _ _).mpr hcv, hex⟩
  · rintro ⟨hlt, hn⟩
    rw [Bool.and_eq_true] at hn
    obtain ⟨hany, hex⟩ := hn
    obtain ⟨t, htnz, hdub, hlen⟩ := exactDouble_decompose hex
    have hnnz : n ≠ 0 := by
      intro h0
      subst h0
      exact absurd hex (by decide)
    have hL2 : 2 ≤ (decStr n).length := by
      have := decStr_length_pos t
      omega
    have hLD : (decStr n).length ≤ (decStr (maxEnds M)).length :=
      decStr_length_mono (by omega)
    have hLmem : (decStr n).length ∈ evenLens ((decStr (maxEnds M)).length) :=
      mem_evenLens.mpr ⟨hL2, by omega, hLD⟩
    refine ⟨passVals M (maxEnds M) (10 ^ ((decStr n).length / 2 - 1))
      (10 ^ ((decStr n).length / 2) - 10 ^ ((decStr n).length / 2 - 1)), ?_, ?_⟩
    · rw [List.mem_map]
      exact ⟨(decStr n).length, hLmem, rfl⟩
    · have hh : 1 ≤ (decStr n).length / 2 := by omega
      rw [mem_passVals hh]
      have hlent : (decStr t).length = (decStr n).length / 2 := by omega
      obtain ⟨hw1, hw2⟩ := decStr_length_window t htnz
      rw [hlent] at hw1 hw2
      refine ⟨t, hw1, hw2, ?_, hdub.symm⟩
      rw [passB_true_iff, hdub]
      exact ⟨by omega, by omega, (in_merged_correct hch n).mpr ((inAnyB_iff _ _).mp hany)⟩

theorem sum1_eq (input : List Char)
    (hends : ∀ r ∈ parse_ranges input, r.end_ < U64 - 1)
    (hsum : qualSum (parse_ranges input) exactDoubleNum (maxEnds (parse_ranges input)) < U64) :
    sum_invalid_ids input =
      some (qualSum (parse_ranges input) exactDoubleNum (maxEnds (parse_ranges input))) := by
  unfold sum_invalid_ids
  by_cases hR : (parse_ranges input).isEmpty
  · rw [if_pos hR]
    have hnil : parse_ranges input = [] := by
      cases h : parse_ranges input
      · rfl
      · rw [h] at hR; simp [List.isEmpty] at hR
    rw [hnil]
    unfold qualSum maxEnds
    simp [inAnyB]
  · rw [if_neg hR]
    obtain ⟨M, hM⟩ := merge_ranges_some (parse_ranges input)
      (by intro r hr; have := hends r hr; omega)
    simp only [hM]
    obtain ⟨hch, hcov, hmax, -⟩ := merge_ranges_inv hM
    have hU1 : (1 : Nat) < U64 := by decide
    have hUlt : maxEnds M < U64 := by
      rw [hmax]
      have := maxEnds_lt (parse_ranges input) (U64 - 1) (by omega) hends
      omega
    have hLs : ∀ L ∈ evenLens ((decStr (maxEnds M)).length),
        2 ≤ L ∧ L % 2 = 0 ∧ L / 2 ≤ 10 := by
      have hD : (decStr (maxEnds M)).length ≤ 20 := by
        apply decStr_length_le _ 20 (by norm_num)
        have : U64 < 10 ^ 20 := by decide
        omega
      intro L hL
      obtain ⟨h1, h2, h3⟩ := mem_evenLens.mp hL
      exact ⟨h1, h2, by omega⟩
    have hkey := cand_sum_eq hch hUlt
    have hq : ((List.range (maxEnds M + 1)).filter
        fun n => inAnyB M n && exactDoubleNum n).sum =
        qualSum (parse_ranges input) exactDoubleNum (maxEnds (parse_ranges input)) := by
      unfold qualSum
      rw [hmax]
      apply congrArg
      apply List.filter_congr
      intro n _
      congr 1
      rw [Bool.eq_iff_iff, inAnyB_iff, inAnyB_iff]
      exact hcov n
    rw [part1Lens_eq M (maxEnds M) (evenLens ((decStr (maxEnds M)).length)) 0 hLs
      (by rw [hkey, hq]; omega)]
    rw [hkey, hq, Nat.zero_add]

/-! ### Numeral round-trip lemmas -/

theorem digitChar_facts {d : Nat} (hd : d < 10) :
    '0' ≤ Char.ofNat (48 + d) ∧ Char.ofNat (48 + d) ≤ '9' ∧
    digitVal (Char.ofNat (48 + d)) = some d ∧
    Char.ofNat (48 + d) ≠ ',' ∧ Char.ofNat (48 + d) ≠ '-' ∧
    Char.ofNat (48 + d) ≠ '\n' ∧ Char.ofNat (48 + d) ≠ ' ' ∧
    Char.ofNat (48 + d) ≠ '+' ∧ isWs (Char.ofNat (48 + d)) = false := by
  interval_cases d <;>
    exact ⟨by decide, by decide, by decide, by decide, by decide, by decide,
      by decide, by decide, by decide⟩

theorem parseNatAcc_digitsBE : ∀ (l : List Nat) (acc : Nat), (∀ d ∈ l, d < 10) →
    parseNatAcc acc (l.map fun d => Char.ofNat (48 + d)) =
      some (acc * 10 ^ l.length + valBE l) := by
  intro l
  induction l with
  | nil =>
    intro acc _
    simp [parseNatAcc, valBE, Nat.ofDigits]
  | cons d l ih =>
    intro acc h
    have hd := h d (List.mem_cons_self _ _)
    rw [List.map_cons, parseNatAcc]
    simp only [(digitChar_facts hd).2.2.1]
    rw [ih _ (fun x hx => h x (List.mem_cons_of_mem _ hx))]
    have hv : valBE (d :: l) = d * 10 ^ l.length + valBE l := by
      have h2 : d :: l = [d] ++ l := rfl
      rw [h2, valBE_append]
      have h3 : valBE [d] = d := by simp [valBE, Nat.ofDigits]
      rw [h3]
    rw [List.length_cons, hv]
    congr 1
    ring

theorem parseU64_all_digits (l : List Char) (hne : l ≠ [])
    (hall : ∀ c ∈ l, '0' ≤ c ∧ c ≤ '9') :
    parseU64 l =
      match parseNatAcc 0 l with
      | some v => if v < U64 then some v else none
      | none => none := by
  have hhead : ¬ (l.head? = some '+') := by
    cases l with
    | nil => simp
    | cons c cs =>
      simp only [List.head?]
      intro hc
      injection hc with hc2
      have := hall c (List.mem_cons_self _ _)
      rw [hc2] at this
      exact absurd this.1 (by decide)
  have hemp : l.isEmpty = false := by
    cases l with
    | nil => exact absurd rfl hne
    | cons c cs => rfl
  simp only [parseU64, if_neg hhead, hemp]
  rfl

theorem parseU64_natChars {n : Nat} (hn : n < U64) :
    parseU64 (natChars n) = some n := by
  unfold natChars
  rw [parseU64_all_digits _
    (by
      intro hcon
      rw [List.map_eq_nil] at hcon
      exact decStr_ne_nil n hcon)
    (by
      rintro c hc
      rw [List.mem_map] at hc
      obtain ⟨d, hd, rfl⟩ := hc
      have := digitChar_facts (decStr_lt_ten n d hd)
      exact ⟨this.1, this.2.1⟩)]
  rw [parseNatAcc_digitsBE (decStr n) 0 (decStr_lt_ten n)]
  rw [Nat.zero_mul, Nat.zero_add, valBE_decStr]
  simp only [if_pos hn]

theorem dropWhile_eq_self_of {p : Char → Bool} :
    ∀ {l : List Char}, (∀ c ∈ l, p c = false) → l.dropWhile p = l := by
  intro l h
  cases l with
  | nil => rfl
  | cons c cs =>
    rw [List.dropWhile_cons]
    rw [h c (List.mem_cons_self _ _)]
    simp

theorem trim_no_ws (l : List Char) (h : ∀ c ∈ l, isWs c = false) : trim l = l := by
  unfold trim
  rw [dropWhile_eq_self_of h]
  rw [dropWhile_eq_self_of (by
    intro c hc
    exact h c (List.mem_reverse.mp hc))]
  rw [List.reverse_reverse]

theorem splitOn_no_sep (sep : Char) : ∀ (l : List Char),
    (∀ c ∈ l, c ≠ sep) → splitOn sep l = [l] := by
  intro l
  induction l with
  | nil => intro _; rfl
  | cons c cs ih =>
    intro h
    rw [splitOn, if_neg (h c (List.mem_cons_self _ _))]
    rw [ih (fun x hx => h x (List.mem_cons_of_mem _ hx))]

theorem oneRange_char_facts {b : Nat} :
    ∀ c ∈ oneRangeInput b,
      c ≠ ',' ∧ c ≠ '\n' ∧ c ≠ ' ' ∧ isWs c = false := by
  intro c hc
  unfold oneRangeInput natChars at hc
  rcases List.mem_cons.mp hc with rfl | hc2
  · exact ⟨by decide, by decide, by decide, by decide⟩
  rcases List.mem_cons.mp hc2 with rfl | hc3
  · exact ⟨by decide, by decide, by decide, by decide⟩
  rw [List.mem_map] at hc3
  obtain ⟨d, hd, rfl⟩ := hc3
  have hf := digitChar_facts (decStr_lt_ten b d hd)
  exact ⟨hf.2.2.2.1, hf.2.2.2.2.2.1, hf.2.2.2.2.2.2.1, hf.2.2.2.2.2.2.2.2⟩

theorem parse_oneRange {b : Nat} (hb : b < U64) :
    parse_ranges (oneRangeInput b) = [⟨1, b⟩] := by
  have hfacts := @oneRange_char_facts b
  unfold parse_ranges
  have hclean : clean (oneRangeInput b) = oneRangeInput b := by
    unfold clean
    rw [List.filter_eq_self.mpr, List.filter_eq_self.mpr]
    · intro a ha
      simp only [ne_eq, decide_eq_true_eq]
      exact (hfacts a ha).2.1
    · intro a ha
      rw [List.mem_filter] at ha
      simp only [ne_eq, decide_eq_true_eq]
      exact (hfacts a ha.1).2.2.1
  rw [hclean]
  rw [splitOn_no_sep ',' _ (fun c hc => (hfacts c hc).1)]
  have htok : parseToken (oneRangeInput b) = some ⟨1, b⟩ := by
    unfold parseToken
    rw [trim_no_ws _ (fun c hc => (hfacts c hc).2.2.2)]
    rw [if_neg (by unfold oneRangeInput; simp)]
    have hso : splitOnce '-' (oneRangeInput b) = some (['1'], natChars b) := by
      unfold oneRangeInput
      rw [splitOnce, if_neg (by decide)]
      rw [splitOnce, if_pos rfl]
      rfl
    simp only [hso, show parseU64 ['1'] = some 1 from by decide,
      parseU64_natChars hb]
  rw [List.filterMap_cons, htok]
  rfl

theorem sum_filter_le (p : Nat → Bool) : ∀ l : List Nat, (l.filter p).sum ≤ l.sum := by
  intro l
  induction l with
  | nil => simp
  | cons a l ih =>
    by_cases hp : p a
    · rw [List.filter_cons_of_pos hp, List.sum_cons, List.sum_cons]
      omega
    · rw [List.filter_cons_of_neg (by simpa using hp), List.sum_cons]
      omega

theorem sum_range_le : ∀ n : Nat, (List.range n).sum ≤ n * n := by
  intro n
  induction n with
  | zero => simp
  | succ n ih =>
    rw [List.range_succ, List.sum_append, List.sum_cons, List.sum_nil]
    have h2 : (n + 1) * (n + 1) = n * n + 2 * n + 1 := by ring
    omega

theorem qualSum_le (R : List Range) (P : Nat → Bool) (B : Nat) :
    qualSum R P B ≤ (B + 1) * (B + 1) := by
  unfold qualSum
  exact le_trans (sum_filter_le _ _) (sum_range_le _)

theorem maxEnds_single (a b : Nat) : maxEnds [⟨a, b⟩] = b := by
  show max b 0 = b
  omega

theorem qualSum_oneRange (b : Nat) :
    qualSum [⟨1, b⟩] exactDoubleNum (maxEnds [⟨1, b⟩]) = bruteDouble b := by
  unfold qualSum bruteDouble
  rw [maxEnds_single]
  apply congrArg
  apply List.filter_congr
  intro n hn
  rw [List.mem_range] at hn
  by_cases h0 : n = 0
  · subst h0
    rw [show exactDoubleNum 0 = false from by decide]
    simp [inAnyB]
  · have h1 : inAnyB [⟨1, b⟩] n = true := by
      rw [inAnyB_iff]
      refine ⟨⟨1, b⟩, List.mem_cons_self _ _, (memR_def _ _).mpr ⟨?_, ?_⟩⟩
      · show 1 ≤ n
        omega
      · show n ≤ b
        omega
    rw [h1, Bool.true_and]

/-- C1 (amended): provided every parsed range end is below 2^64 - 1 (so
merging completes) and the qualifying sum fits in u64, sum_invalid_ids
returns exactly the sum of all values n that lie in at least one parsed
range and whose decimal representation has even length with equal
halves; the reference bound maxEnds is adequate, since enlarging it
leaves the reference sum unchanged.  In particular, over the single
range from 1 to any bound at most 10000 the aggregator equals the
brute-force sum filtering ExactDouble directly.  The original
unconditional claim fails on u64 overflow. -/
theorem C1_exact_double_aggregator_amended :
    (∀ input : List Char,
      (∀ r ∈ parse_ranges input, r.end_ < U64 - 1) →
      qualSum (parse_ranges input) exactDoubleNum (maxEnds (parse_ranges input)) < U64 →
      sum_invalid_ids input =
        some (qualSum (parse_ranges input) exactDoubleNum (maxEnds (parse_ranges input))) ∧
      ∀ B, maxEnds (parse_ranges input) ≤ B →
        qualSum (parse_ranges input) exactDoubleNum B =
          qualSum (parse_ranges input) exactDoubleNum (maxEnds (parse_ranges input))) ∧
    (∀ bound : Nat, 1 ≤ bound → bound ≤ 10000 →
      sum_invalid_ids (oneRangeInput bound) = some (bruteDouble bound)) := by
  constructor
  · intro input h1 h2
    exact ⟨sum1_eq input h1 h2, fun B hB => qualSum_stable _ _ B hB⟩
  · intro bound hb1 hb2
    have hten : (10000 : Nat) < U64 - 1 := by decide
    have hblt : bound < U64 := by omega
    have hpr := parse_oneRange hblt
    have hends : ∀ r ∈ parse_ranges (oneRangeInput bound), r.end_ < U64 - 1 := by
      rw [hpr]
      intro r hr
      rw [List.mem_singleton] at hr
      subst hr
      show bound < U64 - 1
      omega
    have hq : qualSum (parse_ranges (oneRangeInput bound)) exactDoubleNum
        (maxEnds (parse_ranges (oneRangeInput bound))) < U64 := by
      rw [hpr, maxEnds_single]
      have hle := qualSum_le [⟨1, bound⟩] exactDoubleNum bound
      have hbb : (bound + 1) * (bound + 1) ≤ 10001 * 10001 :=
        Nat.mul_le_mul (by omega) (by omega)
      have hUb : (10001 : Nat) * 10001 < U64 := by decide
      omega
    have hmain := sum1_eq (oneRangeInput bound) hends hq
    rw [hpr, qualSum_oneRange] at hmain
    exact hmain

set_option maxRecDepth 400000 in
/-- C1 (witness): the candidate-generation aggregator on the
specification scenario 11-22,95-115,998-1012 equals the reference sum
(1142), and the brute-force agreement holds at bound 100. -/
theorem C1_exact_double_aggregator_witness :
    (∀ r ∈ parse_ranges ("11-22,95-115,998-1012".data), r.end_ < U64 - 1) ∧
    sum_invalid_ids ("11-22,95-115,998-1012".data) =
      some (qualSum (parse_ranges ("11-22,95-115,998-1012".data)) exactDoubleNum
        (maxEnds (parse_ranges ("11-22,95-115,998-1012".data)))) ∧
    sum_invalid_ids (oneRangeInput 100) = some (bruteDouble 100) :=
  ⟨by decide,
    (C1_exact_double_aggregator_amended.1 _ (by decide) (by decide)).1,
    C1_exact_double_aggregator_amended.2 100 (by decide) (by decide)⟩

/-- C1 (counterexample): on the parsable input 0-18446744073709551615,5-6
the merge step aborts on the end + 1 overflow at u64::MAX, so the
aggregator returns no sum at all, although values qualifying under the
claim (such as 11) lie in the parsed ranges. -/
theorem C1_counterexample :
    sum_invalid_ids ("0-18446744073709551615,5-6".data) = none ∧
    (∃ r ∈ parse_ranges ("0-18446744073709551615,5-6".data),
      r.start ≤ 11 ∧ 11 ≤ r.end_) ∧
    exactDoubleNum 11 = true := by
  refine ⟨?_, ?_, ?_⟩ <;> decide

/-- C7 (amended): provided every parsed range end is below 2^64 - 1 and
both qualifying sums fit in u64, the whole pipeline completes without
aborting: merging succeeds, both aggregators return a value, and every
power 10^e the candidate generator can request (e ≤ 10) stays within the
64-bit range.  The original claim fails for parsable inputs reaching
u64::MAX, where the end + 1 computation of the merge overflows, and for
inputs whose qualifying sums exceed 2^64, where the running sums
overflow. -/
theorem C7_overflow_amended :
    ∀ input : List Char,
      (∀ r ∈ parse_ranges input, r.end_ < U64 - 1) →
      qualSum (parse_ranges input) exactDoubleNum (maxEnds (parse_ranges input)) < U64 →
      qualSum (parse_ranges input) multiRepeatNum (maxEnds (parse_ranges input)) < U64 →
      (∃ M, merge_ranges (parse_ranges input) = some M) ∧
      (∃ v1, sum_invalid_ids input = some v1) ∧
      (∃ v2, sum_invalid_ids_part2 input = some v2) ∧
      (∀ e, e ≤ 10 → pow10C e = some (10 ^ e)) := by
  intro input h1 h2 h3
  exact ⟨merge_ranges_some _ (by intro r hr; have := h1 r hr; omega),
    ⟨_, sum1_eq input h1 h2⟩, ⟨_, sum2_eq input h1 h3⟩,
    fun e he => pow10C_some he⟩

set_option maxRecDepth 400000 in
/-- C7 (witness): the pipeline completes on 11-22,95-115. -/
theorem C7_overflow_witness :
    (∀ r ∈ parse_ranges ("11-22,95-115".data), r.end_ < U64 - 1) ∧
    (∃ M, merge_ranges (parse_ranges ("11-22,95-115".data)) = some M) ∧
    (∃ v1, sum_invalid_ids ("11-22,95-115".data) = some v1) ∧
    (∃ v2, sum_invalid_ids_part2 ("11-22,95-115".data) = some v2) ∧
    (∀ e, e ≤ 10 → pow10C e = some (10 ^ e)) := by
  have h := C7_overflow_amended ("11-22,95-115".data) (by decide) (by decide) (by decide)
  exact ⟨by decide, h.1, h.2.1, h.2.2.1, h.2.2.2⟩

/-- C7 (counterexample): the parsable input 0-18446744073709551615,5-6
drives the end + 1 computation of the merge onto u64::MAX, which
overflows the 64-bit range, aborting the pipeline. -/
theorem C7_counterexample :
    merge_ranges (parse_ranges ("0-18446744073709551615,5-6".data)) = none ∧
    parse_ranges ("0-18446744073709551615,5-6".data) ≠ [] := by
  refine ⟨?_, ?_⟩ <;> decide

/-- C10: is_invalid_part2 rejects every single-digit value: its decimal
string has length 1, so the pattern-length loop runs over the empty
range 1..=0; hence single-digit values never contribute to the
bounded-scan aggregator sum. -/
theorem C10_single_digit_rejected :
    ∀ n : Nat, n ≤ 9 → is_invalid_part2 n = false := by
  have h : ∀ n < 10, is_invalid_part2 n = false := by decide
  intro n hn
  exact h n (by omega)

/-- C10 (witness): seven is rejected. -/
theorem C10_single_digit_witness :
    (7 : Nat) ≤ 9 ∧ is_invalid_part2 7 = false :=
  ⟨by decide, C10_single_digit_rejected 7 (by decide)⟩
